import Mathlib

/-!
Shallow embedding of debcargo's `src/crates.rs`: the feature dependency graph
resolver (`all_dependencies_and_features`, `feature_all_deps`,
`calculate_provides`, `traverse_depth`) and the archive extractor
(`filter_path`, `extract_crate`).

Modelling conventions:
* Rust `BTreeMap` values are association lists with unique keys
  (`insertB` replaces an existing binding in place, like `BTreeMap::insert`).
  No claim below depends on the sortedness of key iteration order, only on
  the key/value contents, so the association list keeps insertion order.
* A Rust panic (`unwrap`, `assert!`) is modelled as `none` of an `Option`.
* Rust recursion with no termination guarantee (`feature_all_deps`,
  `traverse_depth`) takes an explicit fuel parameter; returning `none` for
  every fuel value witnesses non-termination of the source recursion.
* External collaborators are modelled at their interface: a `glob::Pattern`
  is an opaque path predicate `List String → Bool`, and
  `tar::Entry::unpack_in` (external crate) refuses a path containing a
  parent-directory (`..`) component, writing nothing in that case.
* Filesystem paths are lists of components; the staging filesystem is a list
  of records keyed by path, where writing replaces an existing record.
-/

namespace Debcargo

/-- Dependency kind, embedding `cargo::core::dependency::Kind`. -/
inductive DepKind where
  | normal
  | build
  | development
deriving DecidableEq

/-- The fields of `cargo::core::Dependency` that `crates.rs` reads or writes:
`package_name`, `kind`, `is_optional`, `set_features`, `set_default_features`. -/
structure Dep where
  name : String
  kind : DepKind
  optional : Bool
  features : List String
  default_features : Bool
deriving DecidableEq

/-- Embeds `cargo::core::FeatureValue`: one raw edge of a declared feature. -/
inductive FV where
  | feature (f : String)
  | crate (name : String)
  | crateFeature (name : String) (feat : String)
deriving DecidableEq

/-- The feature table built by `all_dependencies_and_features`:
feature name ↦ (feature edges, package dependencies). -/
abbrev Table := List (String × (List String × List Dep))

/-- Models `BTreeMap::get`. -/
def lookupA {α : Type} : List (String × α) → String → Option α
  | [], _ => none
  | (k, v) :: r, q => if k = q then some v else lookupA r q

/-- Models `BTreeMap::insert`: replaces the binding of an existing key, else appends. -/
def insertB {α : Type} : List (String × α) → String → α → List (String × α)
  | [], k, v => [(k, v)]
  | (k', v') :: r, k, v => if k' = k then (k, v) :: r else (k', v') :: insertB r k v

/-- Models `deps_by_name.entry(name).or_default().push(dep)`. -/
def insertAppendDep : List (String × List Dep) → Dep → List (String × List Dep)
  | [], d => [(d.name, [d])]
  | (k, g) :: r, d =>
    if k = d.name then (k, g ++ [d]) :: r else (k, g) :: insertAppendDep r d

/-- First loop of `all_dependencies_and_features`: partition the dependency
list by package name, dropping `Kind::Development` dependencies. -/
def depsByName (deps : List Dep) : List (String × List Dep) :=
  deps.foldl (fun m d => if d.kind = DepKind.development then m else insertAppendDep m d) []

/-- Inner loop over one feature's raw edges. `fs`/`ds` accumulate
`feature_deps`/`other_deps`; `none` models the `.unwrap()` panic when a
`Crate`/`CrateFeature` edge names a package absent from `deps_by_name`. -/
def processEdges (dbn : List (String × List Dep)) :
    List FV → List String → List Dep → Option (List String × List Dep)
  | [], fs, ds => some (fs, ds)
  | FV.feature f :: r, fs, ds => processEdges dbn r (fs ++ [f]) ds
  | FV.crate n :: r, fs, ds =>
    match lookupA dbn n with
    | none => none
    | some g => processEdges dbn r fs (ds ++ g)
  | FV.crateFeature n ft :: r, fs, ds =>
    match lookupA dbn n with
    | none => none
    | some g =>
      processEdges dbn r fs
        (ds ++ g.map fun d => { d with features := [ft], default_features := false })

/-- Second loop of `all_dependencies_and_features`: build each declared
feature's entry, with `feature_deps` starting as `vec![""]`. -/
def featurePass (dbn : List (String × List Dep)) :
    List (String × List FV) → Table → Option Table
  | [], t => some t
  | (f, es) :: r, t =>
    match processEdges dbn es [""] [] with
    | none => none
    | some fd => featurePass dbn r (insertB t f fd)

/-- Body of the optional-dependency loop: an optional dependency is inserted
as its own singleton feature (overwriting any same-named entry, as
`BTreeMap::insert` does); a non-optional one is pushed onto `deps_required`. -/
def optionalStep (acc : Table × List Dep) (d : Dep) : Table × List Dep :=
  if d.optional then (insertB acc.1 d.name ([""], [d]), acc.2)
  else (acc.1, acc.2 ++ [d])

/-- Third loop of `all_dependencies_and_features`, over `deps_by_name.values()`. -/
def optionalPass : List (String × List Dep) → Table × List Dep → Table × List Dep
  | [], acc => acc
  | (_, g) :: r, acc => optionalPass r (g.foldl optionalStep acc)

/-- Embeds `CrateInfo::all_dependencies_and_features`; `none` models the
`.unwrap()` panic on an unresolved `Crate`/`CrateFeature` edge. -/
def all_dependencies_and_features (deps : List Dep)
    (features : List (String × List FV)) : Option Table :=
  match featurePass (depsByName deps) features [] with
  | none => none
  | some t0 =>
    let tr := optionalPass (depsByName deps) (t0, [])
    let t1 := insertB tr.1 "" ([], tr.2)
    let t2 := if (lookupA t1 "default").isSome then t1 else insertB t1 "default" ([""], [])
    some t2

/-- Folds the recursive calls of `feature_all_deps` over a feature-edge list,
concatenating the feature and dependency results in order. -/
def fadGo (rec : String → Option (List String × List Dep)) :
    List String → Option (List String × List Dep)
  | [] => some ([], [])
  | f :: r =>
    match rec f, fadGo rec r with
    | some a, some b => some (a.1 ++ b.1, a.2 ++ b.2)
    | _, _ => none

/-- Embeds `CrateInfo::feature_all_deps`, with explicit fuel. The source recurses
with no cycle detection and `.unwrap()`s the table lookup; `none` models
both a missing key and fuel exhaustion, so `∀ fuel, … = none` on an input
whose key is present witnesses that the source recursion never returns. -/
def feature_all_deps (fuel : Nat) (t : Table) (f : String) :
    Option (List String × List Dep) :=
  match fuel with
  | 0 => none
  | m + 1 =>
    match lookupA t f with
    | none => none
    | some fd =>
      match fadGo (fun g => feature_all_deps m t g) fd.1 with
      | none => none
      | some x => some (fd.1 ++ x.1, fd.2 ++ x.2)

/-- Models `provides.entry(k): if absent insert vec![]; push(f)`. -/
def appendProv : List (String × List String) → String → String →
    List (String × List String)
  | [], k, f => [(k, [f])]
  | (k', l) :: r, k, f =>
    if k' = k then (k', l ++ [f]) :: r else (k', l) :: appendProv r k f

/-- The scanning loop of `calculate_provides`: entries with dependencies are
skipped; `assert!(!ff.is_empty() || f == "")` failing is `none`; a one-edge
entry aliases `ff[0]` (which is `""`), a two-edge entry aliases `ff[1]`;
anything else is left alone. Returns the provides map and the `provided`
(removal) list. -/
def scanProvides :
    Table → List (String × List String) → List String →
    Option (List (String × List String) × List String)
  | [], prov, provided => some (prov, provided)
  | (f, (ff, dd)) :: r, prov, provided =>
    if dd = [] then
      if ff = [] ∧ f ≠ "" then none
      else
        match ff with
        | [k] => scanProvides r (appendProv prov k f) (provided ++ [f])
        | [_, k] => scanProvides r (appendProv prov k f) (provided ++ [f])
        | _ => scanProvides r prov provided
    else scanProvides r prov provided

/-- Folds recursive `traverse_depth` calls over a provides list. -/
def tdGo (rec : String → Option (List String)) : List String → Option (List String)
  | [] => some []
  | p :: r =>
    match rec p, tdGo rec r with
    | some a, some b => some (a ++ b)
    | _, _ => none

/-- Embeds `traverse_depth`, with explicit fuel (the source recursion has no
termination guarantee on a cyclic provides map). -/
def traverse_depth (fuel : Nat) (m : List (String × List String)) (k : String) :
    Option (List String) :=
  match fuel with
  | 0 => none
  | j + 1 =>
    match lookupA m k with
    | none => some []
    | some pp =>
      match tdGo (fun q => traverse_depth j m q) pp with
      | none => none
      | some xs => some (pp ++ xs)

/-- Insertion into a sorted string list, for `pp.sort()`. -/
def insSorted (s : String) : List String → List String
  | [] => [s]
  | x :: r => if s < x then s :: x :: r else x :: insSorted s r

/-- Models `pp.sort()`. -/
def sortStr (l : List String) : List String := l.foldr insSorted []

/-- Fuel that strictly exceeds the length of any alias chain reachable from a
surviving key (each step descends to a feature recorded in the provides map,
and each feature is recorded at most once). -/
def provFuel (prov : List (String × List String)) : Nat :=
  prov.foldl (fun a p => a + p.2.length) 0 + prov.length + 2

/-- The final map comprehension of `calculate_provides`:
`keys.map(|k| (k, sort(traverse_depth(provides, k))))`. -/
def mapProv (prov : List (String × List String)) : List String →
    Option (List (String × List String))
  | [] => some []
  | k :: r =>
    match traverse_depth (provFuel prov) prov k, mapProv prov r with
    | some pp, some rest => some ((k, sortStr pp) :: rest)
    | _, _ => none

/-- Embeds `CrateInfo::calculate_provides`: scan for alias candidates, remove them
from the table, then close the provides map transitively over the surviving
keys. Returns (mutated table, provides map); `none` models the `assert!`. -/
def calculate_provides (t : Table) :
    Option (Table × List (String × List String)) :=
  match scanProvides t [] [] with
  | none => none
  | some pr =>
    let t1 := t.filter fun e => !(pr.2.contains e.1)
    match mapProv pr.1 (t1.map (·.1)) with
    | none => none
    | some pm => some (t1, pm)

/-! ### Archive extractor -/

/-- Entry file type of a tar archive entry. -/
inductive EKind where
  | file
  | dir
deriving DecidableEq

/-- Embeds `tar::Entry` at the interface `extract_crate` consumes: path (as
components), file type, content and Unix mtime. -/
structure TarEntry where
  path : List String
  kind : EKind
  content : String
  mtime : Nat
deriving DecidableEq

/-- One record of the staging filesystem. -/
structure FsRec where
  path : List String
  kind : EKind
  content : String
  mtime : Nat
deriving DecidableEq

/-- Models `Path::extension()` of a single file name: the part after the last `.`,
absent when there is no `.` or when everything precedes it (hidden files). -/
def extOf (name : String) : Option String :=
  let cs := name.toList.reverse
  if cs.contains '.' then
    let after := cs.takeWhile fun c => c ≠ '.'
    let before := (cs.dropWhile fun c => c ≠ '.').tail
    if before = [] then none else some (String.mk after.reverse)
  else none

/-- Models `path.extension()`: the extension of the last path component. -/
def pathExt (p : List String) : Option String :=
  match p.getLast? with
  | none => none
  | some n => extOf n

/-- Embeds `CrateInfo::filter_path`; patterns are opaque path predicates
(`Pattern::matches_path`). `Ok true` = excluded (skip), `Ok false` = keep,
`Err msg` = suspicious file not on the include whitelist. -/
def filter_path (excl incl : List (List String → Bool)) (p : List String) :
    Except String Bool :=
  if excl.any fun g => g p then Except.ok true
  else
    if pathExt p = some "c" ∨ pathExt p = some "a" then
      if incl.any fun g => g p then Except.ok false
      else
        Except.error
          ("Suspicious file, should probably be excluded: " ++ String.intercalate "/" p)
    else Except.ok false

/-- Whether a `filter_path` result says to skip the entry (`Ok(true)`). -/
def isSkip : Except String Bool → Bool
  | Except.ok true => true
  | _ => false

/-- Mutable state of the extraction loop. -/
structure LoopSt where
  fs : List FsRec
  modified : Bool
  last_mtime : Nat
  errs : List String
deriving DecidableEq

/-- Outcome of the extraction loop: bail on a path traversal, or run to
completion. -/
inductive LoopOut where
  | traversal (st : LoopSt)
  | done (st : LoopSt)
deriving DecidableEq

/-- Writing a record: replaces an existing record at the same path (later
archive entries overwrite earlier files on disk), else appends. -/
def writeRec : List FsRec → FsRec → List FsRec
  | [], r => [r]
  | x :: xs, r => if x.path = r.path then r :: xs else x :: writeRec xs r

/-- The entry loop of `extract_crate`: filter each entry (an exclusion skips
it and marks the source modified; a suspicious-file message is accumulated
and the entry still unpacked), then unpack — `unpack_in` (modelled from the
spec: the external tar crate refuses a resolved path escaping the staging
root, i.e. one with a `..` component, writing nothing) bails out as a path
traversal — and track the maximum mtime over unpacked entries. -/
def runEntries (excl incl : List (List String → Bool)) :
    List TarEntry → LoopSt → LoopOut
  | [], st => LoopOut.done st
  | e :: r, st =>
    let fp := filter_path excl incl e.path
    let st1 := match fp with
      | Except.error m => { st with errs := st.errs ++ [m] }
      | Except.ok true => { st with modified := true }
      | Except.ok false => st
    if isSkip fp then runEntries excl incl r st1
    else if ".." ∈ e.path then LoopOut.traversal st1
    else
      runEntries excl incl r
        { st1 with
          fs := writeRec st1.fs ⟨e.path, e.kind, e.content, e.mtime⟩
          last_mtime := max st1.last_mtime e.mtime }

/-- The error outcomes of `extract_crate` (each `debcargo_bail!`/`?` site). -/
inductive ExtractErr where
  | pathTraversal
  | suspiciousContent (msgs : List String)
  | malformedLayout
  | manifestIoFailure
deriving DecidableEq

/-- Distinct values in first-occurrence order. -/
def firstDedup : List String → List String
  | [] => []
  | x :: r => x :: (firstDedup r).filter fun y => y ≠ x

/-- The names `read_dir` lists at the top of the staging directory. -/
def topNames (fs : List FsRec) : List String :=
  firstDedup (fs.filterMap fun r => r.path.head?)

/-- Whether the single top-level entry is a directory (either unpacked as a
directory entry, or created implicitly as a parent of a deeper path). -/
def isDirTop (fs : List FsRec) (d : String) : Bool :=
  fs.any fun r => decide (r.path.head? = some d ∧ (r.kind = EKind.dir ∨ 2 ≤ r.path.length))

/-- Models `fs::rename(tempdir/d, path)`: the staging tree re-rooted at `d`. -/
def stripTop (d : String) (fs : List FsRec) : List FsRec :=
  fs.filterMap fun r =>
    match r.path with
    | hd :: rest => if hd = d then some { r with path := rest } else none
    | [] => none

/-- Opening and reading a file of the tree: content and mtime of the first
file record at the path. -/
def findFile (fs : List FsRec) (p : List String) : Option (String × Nat) :=
  match fs.find? fun r => decide (r.path = p ∧ r.kind = EKind.file) with
  | none => none
  | some r => some (r.content, r.mtime)

/-- The manifest-normalization tail of `extract_crate` when the on-disk text
differs from the canonical text: rename `Cargo.toml` to `Cargo.toml.orig`
(replacing a pre-existing one), write the canonical text to `Cargo.toml`,
and `set_file_times` it to the tracked mtime. -/
def rewriteManifest (tree : List FsRec) (reg : String) (lm : Nat) : List FsRec :=
  ((tree.filter fun r => decide (r.path ≠ ["Cargo.toml.orig"])).map fun r =>
      if r.path = ["Cargo.toml"] ∧ r.kind = EKind.file
      then { r with path := ["Cargo.toml.orig"] } else r)
    ++ [⟨["Cargo.toml"], EKind.file, reg, lm⟩]

/-- The loop state at entry to the loop. -/
def initSt : LoopSt := ⟨[], false, 0, []⟩

/-- Embeds `CrateInfo::extract_crate`: run the entry loop (bailing on a path
traversal), abort with the accumulated suspicious-content messages if any,
require exactly one top-level directory, rename it to the destination, then
compare the on-disk manifest against the canonical registry text and rewrite
it if they differ. Returns the tree and the source-modified flag. -/
def extract_crate (excl incl : List (List String → Bool))
    (entries : List TarEntry) (registry_toml : String) :
    Except ExtractErr (List FsRec × Bool) :=
  match runEntries excl incl entries initSt with
  | LoopOut.traversal _ => Except.error ExtractErr.pathTraversal
  | LoopOut.done st =>
    if st.errs ≠ [] then Except.error (ExtractErr.suspiciousContent st.errs)
    else
      match topNames st.fs with
      | [d] =>
        if isDirTop st.fs d then
          let tree := stripTop d st.fs
          match findFile tree ["Cargo.toml"] with
          | none => Except.error ExtractErr.manifestIoFailure
          | some am =>
            if am.1 = registry_toml then Except.ok (tree, st.modified)
            else Except.ok (rewriteManifest tree registry_toml st.last_mtime, true)
        else Except.error ExtractErr.malformedLayout
      | _ => Except.error ExtractErr.malformedLayout

/-- The maximum mtime over the entries the loop unpacks (those not skipped by
the exclude filter), as tracked by `last_mtime` starting from `0`. -/
def maxMtime (excl incl : List (List String → Bool)) (entries : List TarEntry) : Nat :=
  (entries.filter fun e => !isSkip (filter_path excl incl e.path)).foldl
    (fun a e => max a e.mtime) 0

/-- The suspicious-content messages the loop accumulates, in entry order. -/
def collectErrs (excl incl : List (List String → Bool))
    (entries : List TarEntry) : List String :=
  entries.filterMap fun e =>
    match filter_path excl incl e.path with
    | Except.error m => some m
    | _ => none


/-! ### Association-list lemmas -/

theorem lookupA_insertB_self {α : Type} (t : List (String × α)) (k : String) (v : α) :
    lookupA (insertB t k v) k = some v := by
  induction t with
  | nil => simp [insertB, lookupA]
  | cons x r ih =>
    obtain ⟨k', v'⟩ := x
    by_cases h : k' = k
    · simp [insertB, h, lookupA]
    · simp [insertB, h, lookupA, ih]

theorem lookupA_insertB_ne {α : Type} (t : List (String × α)) (k k' : String) (v : α)
    (h : k' ≠ k) : lookupA (insertB t k v) k' = lookupA t k' := by
  induction t with
  | nil => simp [insertB, lookupA, h, Ne.symm h]
  | cons x r ih =>
    obtain ⟨k0, v0⟩ := x
    by_cases h0 : k0 = k
    · subst h0
      simp [insertB, lookupA, h, Ne.symm h]
    · by_cases h1 : k0 = k'
      · simp [insertB, h0, lookupA, h1, h]
      · simp [insertB, h0, lookupA, h1, ih]

theorem mem_insertB {α : Type} {t : List (String × α)} {k : String} {v : α}
    {x : String × α} (hx : x ∈ insertB t k v) : x = (k, v) ∨ x ∈ t := by
  induction t with
  | nil => simpa [insertB] using hx
  | cons y r ih =>
    obtain ⟨k0, v0⟩ := y
    by_cases h0 : k0 = k
    · simp only [insertB, if_pos h0, List.mem_cons] at hx
      rcases hx with h | h
      · exact Or.inl h
      · exact Or.inr (List.mem_cons_of_mem _ h)
    · simp only [insertB, if_neg h0, List.mem_cons] at hx
      rcases hx with h | h
      · exact Or.inr (by simp [h])
      · rcases ih h with h' | h'
        · exact Or.inl h'
        · exact Or.inr (List.mem_cons_of_mem _ h')

/-! ### C1: cyclic feature graph -/

/-- C1: on a feature table whose feature `"a"` references itself, the source
recursion of `feature_all_deps` never returns: for every fuel bound the
fueled embedding runs out of fuel (the key is present, so `none` can only
arise from unbounded recursion). The code neither detects the cycle nor
fails with a `CyclicFeatureGraph` error, contradicting the claim. -/
theorem c1_cyclic_feature_graph_loops (n : Nat) :
    feature_all_deps n [("a", (["a"], []))] "a" = none := by
  induction n with
  | zero => rfl
  | succ m ih => simp [feature_all_deps, lookupA, fadGo, ih]

/-- Witness for C1 at a concrete fuel bound. -/
theorem c1_cyclic_feature_graph_loops_witness :
    feature_all_deps 37 [("a", (["a"], []))] "a" = none :=
  c1_cyclic_feature_graph_loops 37

/-! ### C3: unresolved feature edge -/

/-- C3: a feature edge naming a package absent from the partitioned
(non-development) dependency groups makes `all_dependencies_and_features`
hit `.unwrap()` on `deps_by_name.get(..)` and panic (modelled as `none`):
here the feature `f` references `x`, which is only a development
dependency and so is excluded from the partition. The claimed
`UnresolvedFeatureDependency` error is never returned to the caller. -/
theorem c3_unresolved_feature_edge_panics :
    all_dependencies_and_features
      [⟨"x", DepKind.development, false, [], true⟩]
      [("f", [FV.crate "x"])] = none := by rfl

/-! ### C8: implicit default feature -/

/-- Counterexample to C8: a package with no features section but one required
dependency (`serde`). `"default"` is present with edges `[""]` and no direct
dependencies, but its transitive closure picks up the empty-string feature's
required dependencies, so the dependency closure of `"default"` is
`[serde]`, not empty. -/
theorem c8_counterexample_required_dep :
    all_dependencies_and_features [⟨"serde", DepKind.normal, false, [], true⟩] [] =
      some [("", ([], [⟨"serde", DepKind.normal, false, [], true⟩])),
            ("default", ([""], []))] ∧
    feature_all_deps 5
      [("", ([], [⟨"serde", DepKind.normal, false, [], true⟩])), ("default", ([""], []))]
      "default" = some ([""], [⟨"serde", DepKind.normal, false, [], true⟩]) ∧
    ([⟨"serde", DepKind.normal, false, [], true⟩] : List Dep) ≠ [] :=
  ⟨rfl, rfl, by simp⟩


/-! ### Scan-loop characterization (for C4, C9, C10) -/

/-- The alias key the scan selects from an edge list: `ff[0]` for a
length-one list, `ff[1]` for a length-two list, nothing otherwise. -/
def candTargetList : List String → Option String
  | [k] => some k
  | [_, k] => some k
  | _ => none

/-- The alias key the scan selects for a whole table entry (`none` when the
entry has package dependencies or its edge list is not of length 1 or 2). -/
def candTarget (e : String × (List String × List Dep)) : Option String :=
  if e.2.2 = [] then candTargetList e.2.1 else none

/-- The feature name an entry contributes to the `provided` removal list. -/
def candName (e : String × (List String × List Dep)) : Option String :=
  (candTarget e).map fun _ => e.1

theorem scanProvides_cons_skip {f : String} {ff : List String} {dd : List Dep}
    {r : Table} {prov : List (String × List String)} {provided : List String}
    (h : dd ≠ []) :
    scanProvides ((f, (ff, dd)) :: r) prov provided = scanProvides r prov provided := by
  simp [scanProvides, h]

theorem scanProvides_cons_assert {f : String} {dd : List Dep} {r : Table}
    {prov : List (String × List String)} {provided : List String}
    (hdd : dd = []) (hf : f ≠ "") :
    scanProvides ((f, ([], dd)) :: r) prov provided = none := by
  subst hdd
  simp [scanProvides, hf]

theorem scanProvides_cons_cand {f : String} {ff : List String} {dd : List Dep}
    {r : Table} {prov : List (String × List String)} {provided : List String}
    {k : String} (hdd : dd = []) (hk : candTargetList ff = some k) :
    scanProvides ((f, (ff, dd)) :: r) prov provided =
      scanProvides r (appendProv prov k f) (provided ++ [f]) := by
  subst hdd
  match ff, hk with
  | [a], hk =>
    have ha : a = k := by simpa [candTargetList] using hk
    subst ha
    simp [scanProvides]
  | [a, b], hk =>
    have hb : b = k := by simpa [candTargetList] using hk
    subst hb
    simp [scanProvides]

theorem scanProvides_cons_nocand {f : String} {ff : List String} {dd : List Dep}
    {r : Table} {prov : List (String × List String)} {provided : List String}
    (hdd : dd = []) (hn : candTargetList ff = none) (hok : ff ≠ [] ∨ f = "") :
    scanProvides ((f, (ff, dd)) :: r) prov provided = scanProvides r prov provided := by
  subst hdd
  match ff, hn, hok with
  | [], _, hok =>
    have hf : f = "" := hok.resolve_left (by simp)
    simp [scanProvides, hf]
  | a :: b :: c :: tl, _, _ => simp [scanProvides]

theorem scanProvides_provided {t : Table} :
    ∀ {prov : List (String × List String)} {provided : List String}
      {prov' : List (String × List String)} {provided' : List String},
    scanProvides t prov provided = some (prov', provided') →
    provided' = provided ++ t.filterMap candName := by
  induction t with
  | nil =>
    intro prov provided prov' provided' h
    simp [scanProvides] at h
    simp [h.2.symm]
  | cons e r ih =>
    obtain ⟨f, ff, dd⟩ := e
    intro prov provided prov' provided' h
    by_cases hdd : dd = []
    · cases hct : candTargetList ff with
      | some k =>
        rw [scanProvides_cons_cand hdd hct] at h
        have hn : candName (f, (ff, dd)) = some f := by
          simp [candName, candTarget, hdd, hct]
        simp [List.filterMap_cons, hn, ih h]
      | none =>
        by_cases hffe : ff = []
        · by_cases hf : f = ""
          · rw [scanProvides_cons_nocand hdd hct (Or.inr hf)] at h
            have hn : candName (f, (ff, dd)) = none := by
              simp [candName, candTarget, hdd, hct]
            simp [List.filterMap_cons, hn, ih h]
          · rw [hffe, scanProvides_cons_assert hdd hf] at h
            cases h
        · rw [scanProvides_cons_nocand hdd hct (Or.inl hffe)] at h
          have hn : candName (f, (ff, dd)) = none := by
            simp [candName, candTarget, hdd, hct]
          simp [List.filterMap_cons, hn, ih h]
    · rw [scanProvides_cons_skip hdd] at h
      have hn : candName (f, (ff, dd)) = none := by
        simp [candName, candTarget, hdd]
      simp [List.filterMap_cons, hn, ih h]

theorem lookupA_appendProv (p : List (String × List String)) (k f q : String) :
    (lookupA (appendProv p k f) q).getD [] =
      (lookupA p q).getD [] ++ (if q = k then [f] else []) := by
  induction p with
  | nil =>
    by_cases h : q = k
    · simp [appendProv, lookupA, h]
    · simp [appendProv, lookupA, h, Ne.symm h]
  | cons x r ih =>
    obtain ⟨k0, l0⟩ := x
    by_cases h0 : k0 = k
    · subst h0
      by_cases h1 : k0 = q
      · subst h1
        simp [appendProv, lookupA]
      · simp [appendProv, lookupA, h1, Ne.symm h1]
    · by_cases h1 : k0 = q
      · subst h1
        simp [appendProv, lookupA, h0, Ne.symm h0]
      · simp [appendProv, lookupA, h0, h1, ih]

theorem scanProvides_prov {t : Table} :
    ∀ {prov : List (String × List String)} {provided : List String}
      {prov' : List (String × List String)} {provided' : List String} (q : String),
    scanProvides t prov provided = some (prov', provided') →
    (lookupA prov' q).getD [] = (lookupA prov q).getD [] ++
      t.filterMap (fun e => if candTarget e = some q then some e.1 else none) := by
  induction t with
  | nil =>
    intro prov provided prov' provided' q h
    simp [scanProvides] at h
    simp [h.1.symm]
  | cons e r ih =>
    obtain ⟨f, ff, dd⟩ := e
    intro prov provided prov' provided' q h
    by_cases hdd : dd = []
    · cases hct : candTargetList ff with
      | some k =>
        rw [scanProvides_cons_cand hdd hct] at h
        have hc : candTarget (f, (ff, dd)) = some k := by
          simp [candTarget, hdd, hct]
        by_cases hq : k = q
        · subst hq
          simp [List.filterMap_cons, hc, ih k h, lookupA_appendProv]
        · have : (if candTarget (f, (ff, dd)) = some q then some f else none) = none := by
            simp [hc, hq]
          simp only [List.filterMap_cons, this, ih q h, lookupA_appendProv]
          simp [Ne.symm hq]
      | none =>
        by_cases hffe : ff = []
        · by_cases hf : f = ""
          · rw [scanProvides_cons_nocand hdd hct (Or.inr hf)] at h
            have hc : candTarget (f, (ff, dd)) = none := by
              simp [candTarget, hdd, hct]
            simp [List.filterMap_cons, hc, ih q h]
          · rw [hffe, scanProvides_cons_assert hdd hf] at h
            cases h
        · rw [scanProvides_cons_nocand hdd hct (Or.inl hffe)] at h
          have hc : candTarget (f, (ff, dd)) = none := by
            simp [candTarget, hdd, hct]
          simp [List.filterMap_cons, hc, ih q h]
    · rw [scanProvides_cons_skip hdd] at h
      have hc : candTarget (f, (ff, dd)) = none := by
        simp [candTarget, hdd]
      simp [List.filterMap_cons, hc, ih q h]

theorem scanProvides_assertOk {t : Table} :
    ∀ {prov : List (String × List String)} {provided : List String}
      {x : List (String × List String) × List String},
    scanProvides t prov provided = some x →
    ∀ e ∈ t, e.2.2 = [] → e.2.1 = [] → e.1 = "" := by
  induction t with
  | nil => intro _ _ _ _ e he; cases he
  | cons e r ih =>
    obtain ⟨f, ff, dd⟩ := e
    intro prov provided x h e' he'
    rcases List.mem_cons.mp he' with he' | he'
    · subst he'
      intro hdd hff
      by_contra hf
      rw [show ff = [] from hff,
        scanProvides_cons_assert (show dd = [] from hdd) (show f ≠ "" from hf)] at h
      cases h
    · by_cases hdd : dd = []
      · cases hct : candTargetList ff with
        | some k =>
          rw [scanProvides_cons_cand hdd hct] at h
          exact ih h e' he'
        | none =>
          by_cases hffe : ff = []
          · by_cases hf : f = ""
            · rw [scanProvides_cons_nocand hdd hct (Or.inr hf)] at h
              exact ih h e' he'
            · rw [hffe, scanProvides_cons_assert hdd hf] at h
              cases h
          · rw [scanProvides_cons_nocand hdd hct (Or.inl hffe)] at h
            exact ih h e' he'
      · rw [scanProvides_cons_skip hdd] at h
        exact ih h e' he'

theorem scanProvides_of_nocand {t : Table}
    (h1 : ∀ e ∈ t, candTarget e = none)
    (h2 : ∀ e ∈ t, e.2.2 = [] → e.2.1 = [] → e.1 = "") :
    ∀ prov provided, scanProvides t prov provided = some (prov, provided) := by
  induction t with
  | nil => intro prov provided; simp [scanProvides]
  | cons e r ih =>
    obtain ⟨f, ff, dd⟩ := e
    intro prov provided
    have ih' := ih (fun e he => h1 e (List.mem_cons_of_mem _ he))
      (fun e he => h2 e (List.mem_cons_of_mem _ he))
    by_cases hdd : dd = []
    · have hct : candTargetList ff = none := by
        have := h1 (f, (ff, dd)) (by simp)
        simpa [candTarget, hdd] using this
      by_cases hffe : ff = []
      · have hf : f = "" := h2 (f, (ff, dd)) (by simp) hdd hffe
        rw [scanProvides_cons_nocand hdd hct (Or.inr hf)]
        exact ih' prov provided
      · rw [scanProvides_cons_nocand hdd hct (Or.inl hffe)]
        exact ih' prov provided
    · rw [scanProvides_cons_skip hdd]
      exact ih' prov provided

theorem scanProvides_isSome {t : Table}
    (h : ∀ e ∈ t, e.2.2 = [] → e.2.1 ≠ [] ∨ e.1 = "") :
    ∀ prov provided, (scanProvides t prov provided).isSome := by
  induction t with
  | nil => intro prov provided; simp [scanProvides]
  | cons e r ih =>
    obtain ⟨f, ff, dd⟩ := e
    intro prov provided
    have ih' := ih (fun e he => h e (List.mem_cons_of_mem _ he))
    by_cases hdd : dd = []
    · cases hct : candTargetList ff with
      | some k => rw [scanProvides_cons_cand hdd hct]; exact ih' _ _
      | none =>
        by_cases hffe : ff = []
        · have hf : ff ≠ [] ∨ f = "" := h (f, (ff, dd)) (by simp) hdd
          rw [scanProvides_cons_nocand hdd hct (hf.imp_left (absurd hffe))]
          exact ih' _ _
        · rw [scanProvides_cons_nocand hdd hct (Or.inl hffe)]
          exact ih' _ _
    · rw [scanProvides_cons_skip hdd]
      exact ih' _ _

/-! ### C4: provides synthesis invariants -/

theorem eq_of_mem_nodupKeys {α : Type} {t : List (String × α)}
    (hnd : (t.map Prod.fst).Nodup) {e e' : String × α}
    (he : e ∈ t) (he' : e' ∈ t) (hk : e.1 = e'.1) : e = e' := by
  induction t with
  | nil => cases he
  | cons x r ih =>
    rw [List.map_cons, List.nodup_cons] at hnd
    rcases List.mem_cons.mp he with he | he <;>
      rcases List.mem_cons.mp he' with he' | he'
    · rw [he, he']
    · exact absurd (hk ▸ (List.mem_map_of_mem Prod.fst he') : e.1 ∈ r.map Prod.fst)
        (he ▸ hnd.1)
    · exact absurd ((hk ▸ (List.mem_map_of_mem Prod.fst he)) : e'.1 ∈ r.map Prod.fst)
        (he' ▸ hnd.1)
    · exact ih hnd.2 he he'

/-- Equation helper: once the scan result is known, `calculate_provides`
reduces to filtering the removed keys and closing the provides map. -/
theorem calculate_provides_eq {t : Table} {prov : List (String × List String)}
    {provided : List String} (h : scanProvides t [] [] = some (prov, provided)) :
    calculate_provides t =
      match mapProv prov ((t.filter fun e => !(provided.contains e.1)).map (·.1)) with
      | none => none
      | some pm => some (t.filter fun e => !(provided.contains e.1), pm) := by
  unfold calculate_provides
  rw [h]

/-- Reachability through the provides map built by the scan: `ReachProv prov s f`
holds when a non-empty chain of provides-children leads from `s` down to `f`
(exactly the features `traverse_depth` collects starting from `s`). -/
inductive ReachProv (prov : List (String × List String)) : String → String → Prop where
  | child : ∀ {k f : String}, f ∈ (lookupA prov k).getD [] → ReachProv prov k f
  | tail : ∀ {k p f : String}, p ∈ (lookupA prov k).getD [] →
      ReachProv prov p f → ReachProv prov k f

theorem mem_insSorted (s x : String) : ∀ l : List String,
    x ∈ insSorted s l ↔ x = s ∨ x ∈ l := by
  intro l
  induction l with
  | nil => simp [insSorted]
  | cons y r ih =>
    unfold insSorted
    by_cases h : s < y
    · rw [if_pos h]
      simp [List.mem_cons]
    · rw [if_neg h]
      simp only [List.mem_cons, ih]
      tauto

theorem mem_sortStr (x : String) : ∀ l : List String, x ∈ sortStr l ↔ x ∈ l := by
  intro l
  induction l with
  | nil => simp [sortStr]
  | cons y r ih =>
    show x ∈ insSorted y (sortStr r) ↔ _
    rw [mem_insSorted]
    simp only [List.mem_cons, ih]

theorem tdGo_mem_source {rec : String → Option (List String)} :
    ∀ (pp ys : List String), tdGo rec pp = some ys → ∀ x ∈ ys,
    ∃ p ∈ pp, ∃ yp, rec p = some yp ∧ x ∈ yp := by
  intro pp
  induction pp with
  | nil =>
    intro ys h x hx
    cases Option.some.inj h
    cases hx
  | cons p r ih =>
    intro ys h x hx
    simp only [tdGo] at h
    cases hrp : rec p with
    | none => rw [hrp] at h; exact Option.noConfusion h
    | some a =>
      rw [hrp] at h
      cases htg : tdGo rec r with
      | none => rw [htg] at h; exact Option.noConfusion h
      | some b =>
        rw [htg] at h
        cases Option.some.inj h
        rcases List.mem_append.mp hx with hx | hx
        · exact ⟨p, by simp, a, hrp, hx⟩
        · obtain ⟨q, hq, yq, hyq, hxq⟩ := ih b htg x hx
          exact ⟨q, List.mem_cons_of_mem _ hq, yq, hyq, hxq⟩

theorem tdGo_mem_complete {rec : String → Option (List String)} :
    ∀ (pp ys : List String), tdGo rec pp = some ys → ∀ p ∈ pp,
    ∃ yp, rec p = some yp ∧ ∀ x ∈ yp, x ∈ ys := by
  intro pp
  induction pp with
  | nil => intro ys h p hp; cases hp
  | cons q r ih =>
    intro ys h p hp
    simp only [tdGo] at h
    cases hrq : rec q with
    | none => rw [hrq] at h; exact Option.noConfusion h
    | some a =>
      rw [hrq] at h
      cases htg : tdGo rec r with
      | none => rw [htg] at h; exact Option.noConfusion h
      | some b =>
        rw [htg] at h
        cases Option.some.inj h
        rcases List.mem_cons.mp hp with rfl | hp
        · exact ⟨a, hrq, fun x hx => List.mem_append.mpr (Or.inl hx)⟩
        · obtain ⟨yp, hyp, hsub⟩ := ih b htg p hp
          exact ⟨yp, hyp, fun x hx => List.mem_append.mpr (Or.inr (hsub x hx))⟩

theorem traverse_mem_reach (prov : List (String × List String)) :
    ∀ (j : Nat) (s : String) (xs : List String),
    traverse_depth j prov s = some xs → ∀ f ∈ xs, ReachProv prov s f := by
  intro j
  induction j with
  | zero => intro s xs h; exact Option.noConfusion h
  | succ j ih =>
    intro s xs h f hf
    simp only [traverse_depth] at h
    cases hlk : lookupA prov s with
    | none =>
      rw [hlk] at h
      cases Option.some.inj h
      cases hf
    | some pp =>
      rw [hlk] at h
      have h2 : (match tdGo (fun q => traverse_depth j prov q) pp with
          | none => none
          | some ys => some (pp ++ ys)) = some xs := h
      cases htg : tdGo (fun q => traverse_depth j prov q) pp with
      | none => rw [htg] at h2; exact Option.noConfusion h2
      | some ys =>
        rw [htg] at h2
        cases Option.some.inj h2
        rcases List.mem_append.mp hf with hf | hf
        · exact ReachProv.child (by rw [hlk]; simpa using hf)
        · obtain ⟨p, hp, yp, hyp, hfyp⟩ := tdGo_mem_source pp ys htg f hf
          exact ReachProv.tail (by rw [hlk]; simpa using hp) (ih p yp hyp f hfyp)

theorem reach_mem_traverse {prov : List (String × List String)} {s f : String}
    (hr : ReachProv prov s f) :
    ∀ (j : Nat) (xs : List String), traverse_depth j prov s = some xs → f ∈ xs := by
  induction hr with
  | @child k g hmem =>
    intro j xs h
    cases j with
    | zero => exact Option.noConfusion h
    | succ j =>
      simp only [traverse_depth] at h
      cases hlk : lookupA prov k with
      | none => simp [hlk] at hmem
      | some pp =>
        rw [hlk] at h
        have h2 : (match tdGo (fun q => traverse_depth j prov q) pp with
            | none => none
            | some ys => some (pp ++ ys)) = some xs := h
        have hmem' : g ∈ pp := by simpa [hlk] using hmem
        cases htg : tdGo (fun q => traverse_depth j prov q) pp with
        | none => rw [htg] at h2; exact Option.noConfusion h2
        | some ys =>
          rw [htg] at h2
          cases Option.some.inj h2
          exact List.mem_append.mpr (Or.inl hmem')
  | @tail k p g hp hrec ih =>
    intro j xs h
    cases j with
    | zero => exact Option.noConfusion h
    | succ j =>
      simp only [traverse_depth] at h
      cases hlk : lookupA prov k with
      | none => simp [hlk] at hp
      | some pp =>
        rw [hlk] at h
        have h2 : (match tdGo (fun q => traverse_depth j prov q) pp with
            | none => none
            | some ys => some (pp ++ ys)) = some xs := h
        have hp' : p ∈ pp := by simpa [hlk] using hp
        cases htg : tdGo (fun q => traverse_depth j prov q) pp with
        | none => rw [htg] at h2; exact Option.noConfusion h2
        | some ys =>
          rw [htg] at h2
          cases Option.some.inj h2
          obtain ⟨yp, hyp, hsub⟩ := tdGo_mem_complete pp ys htg p hp'
          exact List.mem_append.mpr (Or.inr (hsub g (ih j yp hyp)))

theorem reach_snoc {prov : List (String × List String)} {s k f : String}
    (h1 : ReachProv prov s k) :
    f ∈ (lookupA prov k).getD [] → ReachProv prov s f := by
  induction h1 with
  | child hm => intro h2; exact ReachProv.tail hm (ReachProv.child h2)
  | tail hm _ ih => intro h2; exact ReachProv.tail hm (ih h2)

theorem reach_last {prov : List (String × List String)} {s f : String}
    (h : ReachProv prov s f) :
    f ∈ (lookupA prov s).getD [] ∨
      ∃ k, ReachProv prov s k ∧ f ∈ (lookupA prov k).getD [] := by
  induction h with
  | child hm => exact Or.inl hm
  | tail hm _ ih =>
    rcases ih with h2 | ⟨k, hk, hfk⟩
    · exact Or.inr ⟨_, ReachProv.child hm, h2⟩
    · exact Or.inr ⟨k, ReachProv.tail hm hk, hfk⟩

theorem mapProv_lookup_mem {prov : List (String × List String)} :
    ∀ (ks : List String) (pm : List (String × List String)),
    mapProv prov ks = some pm → ∀ k ∈ ks,
    ∃ pp, traverse_depth (provFuel prov) prov k = some pp ∧
      lookupA pm k = some (sortStr pp) := by
  intro ks
  induction ks with
  | nil => intro pm h k hk; cases hk
  | cons k0 r ih =>
    intro pm h k hk
    simp only [mapProv] at h
    cases htr : traverse_depth (provFuel prov) prov k0 with
    | none => rw [htr] at h; exact Option.noConfusion h
    | some pp0 =>
      rw [htr] at h
      cases hmr : mapProv prov r with
      | none => rw [hmr] at h; exact Option.noConfusion h
      | some rest =>
        rw [hmr] at h
        cases Option.some.inj h
        by_cases hkk : k = k0
        · subst hkk
          exact ⟨pp0, htr, by simp [lookupA]⟩
        · have hk' : k ∈ r := by
            rcases List.mem_cons.mp hk with h1 | h1
            · exact absurd h1 hkk
            · exact h1
          obtain ⟨pp, htr', hlk'⟩ := ih rest hmr k hk'
          have hne : ¬ k0 = k := fun hh => hkk hh.symm
          exact ⟨pp, htr', by simp [lookupA, hne, hlk']⟩

theorem mapProv_lookup_source {prov : List (String × List String)} :
    ∀ (ks : List String) (pm : List (String × List String)),
    mapProv prov ks = some pm → ∀ s l, lookupA pm s = some l →
    s ∈ ks ∧ ∃ pp, traverse_depth (provFuel prov) prov s = some pp ∧
      l = sortStr pp := by
  intro ks
  induction ks with
  | nil =>
    intro pm h s l hl
    cases Option.some.inj h
    exact Option.noConfusion hl
  | cons k0 r ih =>
    intro pm h s l hl
    simp only [mapProv] at h
    cases htr : traverse_depth (provFuel prov) prov k0 with
    | none => rw [htr] at h; exact Option.noConfusion h
    | some pp0 =>
      rw [htr] at h
      cases hmr : mapProv prov r with
      | none => rw [hmr] at h; exact Option.noConfusion h
      | some rest =>
        rw [hmr] at h
        cases Option.some.inj h
        by_cases hks : k0 = s
        · subst hks
          have hls : l = sortStr pp0 := by simpa [lookupA] using hl.symm
          exact ⟨by simp, pp0, htr, hls⟩
        · have hl' : lookupA rest s = some l := by simpa [lookupA, hks] using hl
          obtain ⟨hs, pp, htr', hlpp⟩ := ih rest hmr s l hl'
          exact ⟨List.mem_cons_of_mem _ hs, pp, htr', hlpp⟩

/-- C4 (amended): on any feature table whose empty-string entries have empty
edge lists, whose keys are distinct, whose alias-candidate targets all name
existing table keys, and whose alias-candidate graph is acyclic (certified by
a rank function that strictly decreases from every candidate entry to its
target), a completed `calculate_provides` never removes an empty-string entry,
and every removed feature appears in the provides set of exactly one surviving
feature of the returned `ProvidesMap`. (The `"default"` entry, by contrast, is
removed whenever it is an alias candidate, and on a cyclic table a removed
feature can appear in no surviving feature's provides set at all — both shown
in the counterexample.) -/
theorem c4_provides_removal_invariants (t t1 : Table)
    (pm : List (String × List String)) (rank : String → Nat)
    (hc : calculate_provides t = some (t1, pm))
    (hemp : ∀ v, ("", v) ∈ t → v.1 = [])
    (hnd : (t.map Prod.fst).Nodup)
    (hclosed : ∀ e ∈ t, ∀ k, candTarget e = some k → k ∈ t.map Prod.fst)
    (hrank : ∀ e ∈ t, ∀ k, candTarget e = some k → rank k < rank e.1) :
    (∀ e ∈ t, e.1 = "" → e ∈ t1) ∧
    (∀ f, f ∈ t.map Prod.fst → f ∉ t1.map Prod.fst →
      ∃! s : String, ∃ l, lookupA pm s = some l ∧ f ∈ l) := by
  cases hscan : scanProvides t [] [] with
  | none =>
    unfold calculate_provides at hc
    rw [hscan] at hc
    cases hc
  | some pr =>
    obtain ⟨prov, provided⟩ := pr
    rw [calculate_provides_eq hscan] at hc
    cases hmp : mapProv prov ((t.filter fun e => !(provided.contains e.1)).map (·.1)) with
    | none => rw [hmp] at hc; cases hc
    | some pm' =>
      rw [hmp] at hc
      have hc3 : some ((t.filter fun e => !(provided.contains e.1)), pm') =
          some (t1, pm) := hc
      have ht1 : t1 = t.filter fun e => !(provided.contains e.1) :=
        ((Prod.mk.injEq _ _ _ _).mp (Option.some.inj hc3)).1.symm
      have hpmeq : pm = pm' :=
        ((Prod.mk.injEq _ _ _ _).mp (Option.some.inj hc3)).2.symm
      subst hpmeq
      have hprovided : provided = t.filterMap candName := by
        simpa using scanProvides_provided hscan
      have hchild : ∀ q, (lookupA prov q).getD [] =
          t.filterMap (fun e => if candTarget e = some q then some e.1 else none) := by
        intro q
        have h5 := scanProvides_prov q hscan
        simpa [lookupA] using h5
      have hF4 : ∀ f k, f ∈ (lookupA prov k).getD [] →
          f ∈ provided ∧ ∃ e ∈ t, e.1 = f ∧ candTarget e = some k := by
        intro f k hf
        rw [hchild k] at hf
        obtain ⟨e, he, hcond⟩ := List.mem_filterMap.mp hf
        by_cases hcq : candTarget e = some k
        · rw [if_pos hcq] at hcond
          have hef : e.1 = f := Option.some.inj hcond
          refine ⟨?_, e, he, hef, hcq⟩
          rw [hprovided]
          refine List.mem_filterMap.mpr ⟨e, he, ?_⟩
          simp [candName, hcq, hef]
        · rw [if_neg hcq] at hcond
          exact Option.noConfusion hcond
      have hF5 : ∀ f ∈ provided, ∃ k, f ∈ (lookupA prov k).getD [] := by
        intro f hf
        rw [hprovided] at hf
        obtain ⟨e, he, hce⟩ := List.mem_filterMap.mp hf
        simp only [candName] at hce
        obtain ⟨k, hk, hek⟩ := Option.map_eq_some'.mp hce
        refine ⟨k, ?_⟩
        rw [hchild k]
        exact List.mem_filterMap.mpr ⟨e, he, by rw [if_pos hk, hek]⟩
      have hF3 : ∀ f k1 k2, f ∈ (lookupA prov k1).getD [] →
          f ∈ (lookupA prov k2).getD [] → k1 = k2 := by
        intro f k1 k2 h1 h2
        obtain ⟨-, e1, he1, hef1, hc1⟩ := hF4 f k1 h1
        obtain ⟨-, e2, he2, hef2, hc2⟩ := hF4 f k2 h2
        have he12 : e1 = e2 := eq_of_mem_nodupKeys hnd he1 he2 (by rw [hef1, hef2])
        rw [he12, hc2] at hc1
        exact (Option.some.inj hc1).symm
      have hreachpro : ∀ s f, ReachProv prov s f → f ∈ provided := by
        intro s f hr
        rcases reach_last hr with h | ⟨k, -, h⟩
        · exact (hF4 f s h).1
        · exact (hF4 f k h).1
      have hsurv : ∀ e ∈ t, e.1 ∉ provided → e ∈ t1 := by
        intro e he hnp
        rw [ht1]
        refine List.mem_filter.mpr ⟨he, ?_⟩
        simpa using hnp
      have ht1sub : ∀ e ∈ t1, e ∈ t ∧ e.1 ∉ provided := by
        intro e he
        rw [ht1] at he
        have h2 := List.mem_filter.mp he
        refine ⟨h2.1, ?_⟩
        have h3 := h2.2
        simp only [Bool.not_eq_true'] at h3
        simpa using h3
      have hrem : ∀ f, f ∈ t.map Prod.fst → f ∉ t1.map Prod.fst → f ∈ provided := by
        intro f hft hft1
        obtain ⟨e, he, hef⟩ := List.mem_map.mp hft
        by_contra hnp
        exact hft1 (List.mem_map.mpr ⟨e, hsurv e he (by rw [hef]; exact hnp), hef⟩)
      have hroot : ∀ (N : Nat) (f : String), rank f < N → f ∈ provided →
          ∃ s, s ∈ t.map Prod.fst ∧ s ∉ provided ∧ ReachProv prov s f := by
        intro N
        induction N with
        | zero => intro f hf; exact absurd hf (Nat.not_lt_zero _)
        | succ N ih =>
          intro f hfN hfp
          obtain ⟨k, hk⟩ := hF5 f hfp
          obtain ⟨-, e, he, hef, hec⟩ := hF4 f k hk
          have hkrank : rank k < rank f := by
            have h5 := hrank e he k hec
            rwa [hef] at h5
          by_cases hkp : k ∈ provided
          · obtain ⟨s, hs1, hs2, hs3⟩ := ih k (by omega) hkp
            exact ⟨s, hs1, hs2, reach_snoc hs3 hk⟩
          · exact ⟨k, hclosed e he k hec, hkp, ReachProv.child hk⟩
      have huniq : ∀ (N : Nat) (f : String), rank f < N → ∀ s1 s2,
          s1 ∉ provided → s2 ∉ provided →
          ReachProv prov s1 f → ReachProv prov s2 f → s1 = s2 := by
        intro N
        induction N with
        | zero => intro f hf; exact absurd hf (Nat.not_lt_zero _)
        | succ N ih =>
          intro f hfN s1 s2 hs1 hs2 hr1 hr2
          rcases reach_last hr1 with h1 | ⟨k1, hrk1, hc1⟩
          · rcases reach_last hr2 with h2 | ⟨k2, hrk2, hc2⟩
            · exact hF3 f s1 s2 h1 h2
            · have hk : s1 = k2 := hF3 f s1 k2 h1 hc2
              rw [hk] at hs1
              exact absurd (hreachpro s2 k2 hrk2) hs1
          · rcases reach_last hr2 with h2 | ⟨k2, hrk2, hc2⟩
            · have hk : s2 = k1 := hF3 f s2 k1 h2 hc1
              rw [hk] at hs2
              exact absurd (hreachpro s1 k1 hrk1) hs2
            · have hk : k1 = k2 := hF3 f k1 k2 hc1 hc2
              subst hk
              obtain ⟨-, e, he, hef, hec⟩ := hF4 f k1 hc1
              have hlt : rank k1 < rank f := by
                have h5 := hrank e he k1 hec
                rwa [hef] at h5
              exact ih k1 (by omega) s1 s2 hs1 hs2 hrk1 hrk2
      constructor
      · intro e he he1
        apply hsurv e he
        rw [he1, hprovided]
        intro hcontra
        obtain ⟨e', he', hce'⟩ := List.mem_filterMap.mp hcontra
        simp only [candName] at hce'
        obtain ⟨k, hk, hek⟩ := Option.map_eq_some'.mp hce'
        have heq : e' = ("", e'.2) := by rw [← hek]
        have hv : e'.2.1 = [] := hemp e'.2 (heq ▸ he')
        simp only [candTarget] at hk
        rw [hv] at hk
        by_cases hdd : e'.2.2 = []
        · rw [if_pos hdd] at hk
          simp [candTargetList] at hk
        · rw [if_neg hdd] at hk
          exact Option.noConfusion hk
      · intro f hft hft1
        have hfp : f ∈ provided := hrem f hft hft1
        obtain ⟨s, hskeys, hsnp, hreach⟩ := hroot (rank f + 1) f (by omega) hfp
        obtain ⟨es, hes, hesf⟩ := List.mem_map.mp hskeys
        have hes1 : es ∈ t1 := hsurv es hes (by rw [hesf]; exact hsnp)
        have hsks : s ∈ (t.filter fun e => !(provided.contains e.1)).map (·.1) := by
          rw [← ht1]
          exact List.mem_map.mpr ⟨es, hes1, hesf⟩
        obtain ⟨pp, htrav, hlk⟩ := mapProv_lookup_mem _ pm hmp s hsks
        refine ⟨s, ⟨sortStr pp, hlk,
          (mem_sortStr f pp).mpr (reach_mem_traverse hreach _ pp htrav)⟩, ?_⟩
        rintro s' ⟨l, hl, hfl⟩
        obtain ⟨hs'ks, pp', htrav', hlpp⟩ := mapProv_lookup_source _ pm hmp s' l hl
        have hreach' : ReachProv prov s' f := by
          apply traverse_mem_reach prov (provFuel prov) s' pp' htrav' f
          rw [hlpp] at hfl
          exact (mem_sortStr f pp').mp hfl
        have hs'np : s' ∉ provided := by
          rw [← ht1] at hs'ks
          obtain ⟨es', hes', hesf'⟩ := List.mem_map.mp hs'ks
          have h6 := (ht1sub es' hes').2
          rwa [hesf'] at h6
        exact huniq (rank f + 1) f (by omega) s' s hs'np hsnp hreach' hreach

/-- Witness for C4 (amended) on the no-features-section table, with the rank
certificate sending `"default"` to 1 and every other feature to 0. -/
theorem c4_provides_removal_invariants_witness :
    (∀ e ∈ ([("", ([], [])), ("default", ([""], []))] : Table), e.1 = "" →
      e ∈ ([("", ([], []))] : Table)) ∧
    (∀ f, f ∈ ([("", ([], [])), ("default", ([""], []))] : Table).map Prod.fst →
      f ∉ ([("", ([], []))] : Table).map Prod.fst →
      ∃! s : String, ∃ l, lookupA [("", ["default"])] s = some l ∧ f ∈ l) := by
  refine c4_provides_removal_invariants
    [("", ([], [])), ("default", ([""], []))] [("", ([], []))] [("", ["default"])]
    (fun st => if st = "default" then 1 else 0) rfl ?_ (by decide) ?_ ?_
  · intro v hv
    rcases List.mem_cons.mp hv with h | hv
    · have hv2 : v = ([], []) := congrArg Prod.snd h
      rw [hv2]
    · rcases List.mem_cons.mp hv with h | hv
      · have h1 : ("" : String) = "default" := congrArg Prod.fst h
        exact absurd h1 (by decide)
      · cases hv
  · intro e he k hk
    rcases List.mem_cons.mp he with rfl | he
    · simp [candTarget, candTargetList] at hk
    · rcases List.mem_cons.mp he with rfl | he
      · simp [candTarget, candTargetList] at hk
        subst hk
        decide
      · cases he
  · intro e he k hk
    rcases List.mem_cons.mp he with rfl | he
    · simp [candTarget, candTargetList] at hk
    · rcases List.mem_cons.mp he with rfl | he
      · simp [candTarget, candTargetList] at hk
        subst hk
        decide
      · cases he

/-- Counterexample to C4: the `"default"` entry of a no-features-section table
is an alias candidate, so `calculate_provides` removes it (no `"default"` key
survives), contradicting the claim that `"default"` is never removed; and on a
table with the cyclic alias pair `a`-`b`, the removed feature `"a"` appears in
no surviving feature's provides set of the returned map, contradicting the
claim that every removed feature appears in exactly one surviving feature. -/
theorem c4_counterexample_default_removed :
    (calculate_provides [("", ([], [])), ("default", ([""], []))] =
        some ([("", ([], []))], [("", ["default"])]) ∧
      lookupA ([("", ([], []))] : Table) "default" = none) ∧
    (calculate_provides [("a", (["", "b"], [])), ("b", (["", "a"], [])),
          ("", ([], [])), ("default", ([""], []))] =
        some ([("", ([], []))], [("", ["default"])]) ∧
      ("a", ((["", "b"] : List String), ([] : List Dep))) ∈
        ([("a", (["", "b"], [])), ("b", (["", "a"], [])),
          ("", ([], [])), ("default", ([""], []))] : Table) ∧
      ∀ p ∈ ([("", ["default"])] : List (String × List String)), "a" ∉ p.2) :=
  ⟨⟨rfl, rfl⟩, rfl, List.mem_cons_self _ _, by decide⟩

/-! ### C9: idempotence of provides synthesis -/

theorem mapProv_nil (ks : List String) :
    mapProv [] ks = some (ks.map fun k => (k, [])) := by
  have hfuel : provFuel [] = 2 := rfl
  induction ks with
  | nil => rfl
  | cons k r ih => simp [mapProv, hfuel, traverse_depth, lookupA, ih, sortStr]


/-- C9: running `calculate_provides` on its own output table is a no-op —
the second scan selects no alias candidates (the removal list of the second
run is empty), the table is returned unchanged, and the provides map is
trivial. -/
theorem c9_calculate_provides_idempotent (t t1 : Table)
    (pm : List (String × List String))
    (hc : calculate_provides t = some (t1, pm)) :
    scanProvides t1 [] [] = some ([], []) ∧
    calculate_provides t1 = some (t1, t1.map fun e => (e.1, [])) := by
  cases hscan : scanProvides t [] [] with
  | none =>
    unfold calculate_provides at hc
    rw [hscan] at hc
    cases hc
  | some pr =>
    obtain ⟨prov, provided⟩ := pr
    rw [calculate_provides_eq hscan] at hc
    cases hmp : mapProv prov ((t.filter fun e => !(provided.contains e.1)).map (·.1)) with
    | none => rw [hmp] at hc; cases hc
    | some pm' =>
      rw [hmp] at hc
      have hc3 : some ((t.filter fun e => !(provided.contains e.1)), pm') =
          some (t1, pm) := hc
      have ht1 : t1 = t.filter fun e => !(provided.contains e.1) :=
        ((Prod.mk.injEq _ _ _ _).mp (Option.some.inj hc3)).1.symm
      have hprovided : provided = t.filterMap candName := by
        simpa using scanProvides_provided hscan
      have hsub : ∀ e ∈ t1, e ∈ t ∧ e.1 ∉ provided := by
        intro e he
        rw [ht1] at he
        have h2 := List.mem_filter.mp he
        refine ⟨h2.1, fun hmem => ?_⟩
        have h3 := h2.2
        simp only [Bool.not_eq_true'] at h3
        exact absurd hmem (by simpa using h3)
      have hnocand : ∀ e ∈ t1, candTarget e = none := by
        intro e he
        obtain ⟨het, hnp⟩ := hsub e he
        cases hct : candTarget e with
        | none => rfl
        | some k =>
          exfalso
          apply hnp
          rw [hprovided]
          exact List.mem_filterMap.mpr ⟨e, het, by simp [candName, hct]⟩
      have hassert : ∀ e ∈ t1, e.2.2 = [] → e.2.1 = [] → e.1 = "" := by
        intro e he
        exact scanProvides_assertOk hscan e (hsub e he).1
      have hscan1 : scanProvides t1 [] [] = some ([], []) :=
        scanProvides_of_nocand hnocand hassert [] []
      refine ⟨hscan1, ?_⟩
      rw [calculate_provides_eq hscan1]
      have hfilter : (t1.filter fun e => !(List.contains [] e.1)) = t1 :=
        List.filter_eq_self.mpr (fun a _ => rfl)
      rw [hfilter, mapProv_nil]
      simp [List.map_map, Function.comp]

/-- Witness for C9: the first run on the no-features-section table removes
`"default"`; the second run on the resulting singleton table removes
nothing. -/
theorem c9_calculate_provides_idempotent_witness :
    scanProvides [("", ([], []))] [] [] = some ([], []) ∧
    calculate_provides [("", ([], []))] = some ([("", ([], []))], [("", [])]) :=
  c9_calculate_provides_idempotent
    [("", ([], [])), ("default", ([""], []))] [("", ([], []))] [("", ["default"])]
    (by rfl)

/-! ### C10: invariants of built tables -/

theorem processEdges_fs_prefix {dbn : List (String × List Dep)} {es : List FV} :
    ∀ {fs : List String} {ds : List Dep} {fd : List String × List Dep},
    processEdges dbn es fs ds = some fd → ∃ u, fd.1 = fs ++ u := by
  induction es with
  | nil =>
    intro fs ds fd h
    exact ⟨[], by rw [← Option.some.inj h]; simp⟩
  | cons fv r ih =>
    intro fs ds fd h
    cases fv with
    | feature f =>
      obtain ⟨u, hu⟩ := ih h
      exact ⟨[f] ++ u, by rw [hu]; simp⟩
    | crate n =>
      simp only [processEdges] at h
      cases hlk : lookupA dbn n with
      | none => rw [hlk] at h; exact Option.noConfusion h
      | some g => rw [hlk] at h; exact ih h
    | crateFeature n ft =>
      simp only [processEdges] at h
      cases hlk : lookupA dbn n with
      | none => rw [hlk] at h; exact Option.noConfusion h
      | some g => rw [hlk] at h; exact ih h

theorem featurePass_good {dbn : List (String × List Dep)} {fl : List (String × List FV)} :
    ∀ {t t' : Table}, (∀ e ∈ t, e.1 ≠ "" → e.2.1.head? = some "") →
    featurePass dbn fl t = some t' →
    ∀ e ∈ t', e.1 ≠ "" → e.2.1.head? = some "" := by
  induction fl with
  | nil =>
    intro t t' hg h
    cases Option.some.inj h
    exact hg
  | cons p r ih =>
    obtain ⟨f, es⟩ := p
    intro t t' hg h
    simp only [featurePass] at h
    cases hpe : processEdges dbn es [""] [] with
    | none => rw [hpe] at h; exact Option.noConfusion h
    | some fd =>
      rw [hpe] at h
      refine ih ?_ h
      intro e he hne
      rcases mem_insertB he with rfl | he'
      · obtain ⟨u, hu⟩ := processEdges_fs_prefix hpe
        simp [hu]
      · exact hg e he' hne

theorem foldl_optionalStep_good {g : List Dep} :
    ∀ {acc : Table × List Dep},
    (∀ e ∈ acc.1, e.1 ≠ "" → e.2.1.head? = some "") →
    ∀ e ∈ (g.foldl optionalStep acc).1, e.1 ≠ "" → e.2.1.head? = some "" := by
  induction g with
  | nil => intro acc hg; exact hg
  | cons d r ih =>
    intro acc hg
    refine ih ?_
    intro e he hne
    unfold optionalStep at he
    by_cases hopt : d.optional = true
    · rw [if_pos hopt] at he
      rcases mem_insertB he with rfl | he'
      · simp
      · exact hg e he' hne
    · rw [if_neg hopt] at he
      exact hg e he hne

theorem optionalPass_good {gl : List (String × List Dep)} :
    ∀ {acc : Table × List Dep},
    (∀ e ∈ acc.1, e.1 ≠ "" → e.2.1.head? = some "") →
    ∀ e ∈ (optionalPass gl acc).1, e.1 ≠ "" → e.2.1.head? = some "" := by
  induction gl with
  | nil => intro acc hg; exact hg
  | cons p r ih =>
    obtain ⟨k, g⟩ := p
    intro acc hg
    exact ih (foldl_optionalStep_good hg)

theorem finishTable_invariant (trt : Table) (req : List Dep) (t : Table)
    (hg : ∀ e ∈ trt, e.1 ≠ "" → e.2.1.head? = some "")
    (ht : t = (if (lookupA (insertB trt "" ([], req)) "default").isSome
        then insertB trt "" ([], req)
        else insertB (insertB trt "" ([], req)) "default" ([""], []))) :
    (∃ r, lookupA t "" = some ([], r)) ∧
    (∀ e ∈ t, e.1 ≠ "" → e.2.1.head? = some "") := by
  subst ht
  have hl1 : lookupA (insertB trt "" ([], req)) "" = some ([], req) :=
    lookupA_insertB_self _ _ _
  have hg1 : ∀ e ∈ insertB trt "" ([], req), e.1 ≠ "" → e.2.1.head? = some "" := by
    intro e he hne
    rcases mem_insertB he with h | h
    · exact absurd (show e.1 = "" by rw [h]) hne
    · exact hg e h hne
  by_cases hd : (lookupA (insertB trt "" ([], req)) "default").isSome
  · rw [if_pos hd]
    exact ⟨⟨req, hl1⟩, hg1⟩
  · rw [if_neg hd]
    refine ⟨⟨req, ?_⟩, ?_⟩
    · rw [lookupA_insertB_ne _ _ _ _ (by decide)]
      exact hl1
    · intro e he hne
      rcases mem_insertB he with h | h
      · rw [h]
        simp
      · exact hg1 e h hne

/-- C10: in every table `all_dependencies_and_features` returns, the
empty-string key is mapped to an entry with an empty edge list, every entry
with a non-empty key has an edge list whose first element is the empty
string (in particular non-empty), and consequently the `assert!` inside
`calculate_provides` cannot fire: the scan pass always succeeds. -/
theorem c10_built_table_invariant (deps : List Dep)
    (features : List (String × List FV)) (t : Table)
    (h : all_dependencies_and_features deps features = some t) :
    (∃ req, lookupA t "" = some ([], req)) ∧
    (∀ e ∈ t, e.1 ≠ "" → e.2.1.head? = some "") ∧
    (scanProvides t [] []).isSome := by
  unfold all_dependencies_and_features at h
  revert h
  cases hfp : featurePass (depsByName deps) features [] with
  | none => intro h; cases h
  | some t0 =>
    intro h
    have hg0 : ∀ e ∈ t0, e.1 ≠ "" → e.2.1.head? = some "" :=
      featurePass_good (fun e he => absurd he (List.not_mem_nil e)) hfp
    have hgtr := @optionalPass_good (depsByName deps) (t0, []) hg0
    have hmain := finishTable_invariant (optionalPass (depsByName deps) (t0, [])).1
      (optionalPass (depsByName deps) (t0, [])).2 t hgtr (Option.some.inj h).symm
    refine ⟨hmain.1, hmain.2, scanProvides_isSome ?_ [] []⟩
    intro e he _
    by_cases hne : e.1 = ""
    · exact Or.inr hne
    · left
      intro hnil
      have := hmain.2 e he hne
      rw [hnil] at this
      exact absurd this (by simp)

/-- Witness for C10 on the empty package (no dependencies, no features). -/
theorem c10_built_table_invariant_witness :
    (∃ req, lookupA ([("", ([], [])), ("default", ([""], []))] : Table) "" =
      some ([], req)) ∧
    (∀ e ∈ ([("", ([], [])), ("default", ([""], []))] : Table),
      e.1 ≠ "" → e.2.1.head? = some "") ∧
    (scanProvides [("", ([], [])), ("default", ([""], []))] [] []).isSome :=
  c10_built_table_invariant [] [] _ (by rfl)

/-! ### C5: optional dependencies -/

theorem lookupA_insertAppendDep_self (m : List (String × List Dep)) (d : Dep) :
    lookupA (insertAppendDep m d) d.name =
      some ((lookupA m d.name).getD [] ++ [d]) := by
  induction m with
  | nil => simp [insertAppendDep, lookupA]
  | cons x r ih =>
    obtain ⟨k, g⟩ := x
    by_cases h : k = d.name
    · simp [insertAppendDep, h, lookupA]
    · simp [insertAppendDep, h, lookupA, ih]

theorem lookupA_insertAppendDep_ne (m : List (String × List Dep)) (d : Dep)
    (q : String) (h : q ≠ d.name) :
    lookupA (insertAppendDep m d) q = lookupA m q := by
  induction m with
  | nil => simp [insertAppendDep, lookupA, Ne.symm h]
  | cons x r ih =>
    obtain ⟨k, g⟩ := x
    by_cases h0 : k = d.name
    · subst h0
      simp [insertAppendDep, lookupA, Ne.symm h]
    · by_cases h1 : k = q
      · simp [insertAppendDep, h0, lookupA, h1, h]
      · simp [insertAppendDep, h0, lookupA, h1, ih]

theorem insertAppendDep_names {m : List (String × List Dep)} {d : Dep}
    (hm : ∀ p ∈ m, ∀ x ∈ p.2, x.name = p.1 ∧ x.kind ≠ DepKind.development)
    (hd : d.kind ≠ DepKind.development) :
    ∀ p ∈ insertAppendDep m d, ∀ x ∈ p.2,
      x.name = p.1 ∧ x.kind ≠ DepKind.development := by
  induction m with
  | nil =>
    intro p hp x hx
    simp only [insertAppendDep, List.mem_singleton] at hp
    subst hp
    simp only [List.mem_singleton] at hx
    subst hx
    exact ⟨rfl, hd⟩
  | cons y r ih =>
    obtain ⟨k, g⟩ := y
    intro p hp x hx
    by_cases hk : k = d.name
    · simp only [insertAppendDep, if_pos hk] at hp
      rcases List.mem_cons.mp hp with rfl | hp
      · rcases List.mem_append.mp hx with h | h
        · exact hm (k, g) (by simp) x h
        · simp only [List.mem_singleton] at h
          subst h
          exact ⟨hk.symm, hd⟩
      · exact hm p (List.mem_cons_of_mem _ hp) x hx
    · simp only [insertAppendDep, if_neg hk] at hp
      rcases List.mem_cons.mp hp with rfl | hp
      · exact hm (k, g) (by simp) x hx
      · exact ih (fun p hp => hm p (List.mem_cons_of_mem _ hp)) p hp x hx

theorem depsByName_names (deps : List Dep) :
    ∀ p ∈ depsByName deps, ∀ x ∈ p.2,
      x.name = p.1 ∧ x.kind ≠ DepKind.development := by
  unfold depsByName
  suffices h : ∀ (m : List (String × List Dep)),
      (∀ p ∈ m, ∀ x ∈ p.2, x.name = p.1 ∧ x.kind ≠ DepKind.development) →
      ∀ p ∈ deps.foldl
        (fun m d => if d.kind = DepKind.development then m else insertAppendDep m d) m,
        ∀ x ∈ p.2, x.name = p.1 ∧ x.kind ≠ DepKind.development by
    exact h [] (fun p hp => absurd hp (List.not_mem_nil p))
  induction deps with
  | nil => intro m hm; exact hm
  | cons d r ih =>
    intro m hm
    simp only [List.foldl_cons]
    by_cases hk : d.kind = DepKind.development
    · rw [if_pos hk]
      exact ih m hm
    · rw [if_neg hk]
      exact ih _ (insertAppendDep_names hm hk)

theorem insertAppendDep_prop {P : Dep → Prop} {m : List (String × List Dep)} {d : Dep}
    (hm : ∀ p ∈ m, ∀ x ∈ p.2, P x) (hd : P d) :
    ∀ p ∈ insertAppendDep m d, ∀ x ∈ p.2, P x := by
  induction m with
  | nil =>
    intro p hp x hx
    simp only [insertAppendDep, List.mem_singleton] at hp
    subst hp
    simp only [List.mem_singleton] at hx
    subst hx
    exact hd
  | cons y r ih =>
    obtain ⟨k, g⟩ := y
    intro p hp x hx
    by_cases hk : k = d.name
    · simp only [insertAppendDep, if_pos hk] at hp
      rcases List.mem_cons.mp hp with rfl | hp
      · rcases List.mem_append.mp hx with h | h
        · exact hm (k, g) (by simp) x h
        · simp only [List.mem_singleton] at h
          subst h
          exact hd
      · exact hm p (List.mem_cons_of_mem _ hp) x hx
    · simp only [insertAppendDep, if_neg hk] at hp
      rcases List.mem_cons.mp hp with rfl | hp
      · exact hm (k, g) (by simp) x hx
      · exact ih (fun p hp => hm p (List.mem_cons_of_mem _ hp)) p hp x hx

theorem depsByName_prop (deps : List Dep) (P : Dep → Prop) (hP : ∀ d ∈ deps, P d) :
    ∀ p ∈ depsByName deps, ∀ x ∈ p.2, P x := by
  unfold depsByName
  suffices h : ∀ (l : List Dep) (m : List (String × List Dep)), (∀ d ∈ l, P d) →
      (∀ p ∈ m, ∀ x ∈ p.2, P x) →
      ∀ p ∈ l.foldl
        (fun m d => if d.kind = DepKind.development then m else insertAppendDep m d) m,
        ∀ x ∈ p.2, P x by
    exact h deps [] hP (fun p hp => absurd hp (List.not_mem_nil p))
  intro l
  induction l with
  | nil => intro m _ hm; exact hm
  | cons d r ih =>
    intro m hl hm
    simp only [List.foldl_cons]
    by_cases hk : d.kind = DepKind.development
    · rw [if_pos hk]
      exact ih m (fun d' hd' => hl d' (List.mem_cons_of_mem _ hd')) hm
    · rw [if_neg hk]
      exact ih _ (fun d' hd' => hl d' (List.mem_cons_of_mem _ hd'))
        (insertAppendDep_prop hm (hl d (by simp)))

theorem mem_keys_insertAppendDep {m : List (String × List Dep)} {d : Dep} {q : String}
    (h : q ∈ (insertAppendDep m d).map Prod.fst) :
    q ∈ m.map Prod.fst ∨ q = d.name := by
  induction m with
  | nil => simpa [insertAppendDep] using h
  | cons y r ih =>
    obtain ⟨k, g⟩ := y
    by_cases hk : k = d.name
    · simp only [insertAppendDep, if_pos hk, List.map_cons, List.mem_cons] at h
      rcases h with h | h
      · exact Or.inl (by simp [h])
      · exact Or.inl (by simp [h])
    · simp only [insertAppendDep, if_neg hk, List.map_cons, List.mem_cons] at h
      rcases h with h | h
      · exact Or.inl (by simp [h])
      · rcases ih h with h | h
        · exact Or.inl (by simp [h])
        · exact Or.inr h

theorem nodup_keys_insertAppendDep {m : List (String × List Dep)} {d : Dep}
    (h : (m.map Prod.fst).Nodup) :
    ((insertAppendDep m d).map Prod.fst).Nodup := by
  induction m with
  | nil => simp [insertAppendDep]
  | cons y r ih =>
    obtain ⟨k, g⟩ := y
    rw [List.map_cons, List.nodup_cons] at h
    by_cases hk : k = d.name
    · simp only [insertAppendDep, if_pos hk, List.map_cons]
      exact List.nodup_cons.mpr h
    · simp only [insertAppendDep, if_neg hk, List.map_cons]
      refine List.nodup_cons.mpr ⟨?_, ih h.2⟩
      intro hmem
      rcases mem_keys_insertAppendDep hmem with hmem | hmem
      · exact h.1 hmem
      · exact hk hmem

theorem depsByName_nodup_keys (deps : List Dep) :
    ((depsByName deps).map Prod.fst).Nodup := by
  unfold depsByName
  suffices h : ∀ (m : List (String × List Dep)), (m.map Prod.fst).Nodup →
      ((deps.foldl
        (fun m d => if d.kind = DepKind.development then m else insertAppendDep m d)
        m).map Prod.fst).Nodup by
    exact h [] (by simp)
  induction deps with
  | nil => intro m hm; exact hm
  | cons d r ih =>
    intro m hm
    simp only [List.foldl_cons]
    by_cases hk : d.kind = DepKind.development
    · rw [if_pos hk]; exact ih m hm
    · rw [if_neg hk]; exact ih _ (nodup_keys_insertAppendDep hm)

theorem foldl_step_preserves_mem (r : List Dep) :
    ∀ (m : List (String × List Dep)) (q : String) (d : Dep),
    d ∈ (lookupA m q).getD [] →
    d ∈ (lookupA (r.foldl
      (fun m d => if d.kind = DepKind.development then m else insertAppendDep m d) m)
      q).getD [] := by
  induction r with
  | nil => intro m q d h; exact h
  | cons d0 r ih =>
    intro m q d h
    simp only [List.foldl_cons]
    by_cases hk : d0.kind = DepKind.development
    · rw [if_pos hk]
      exact ih m q d h
    · rw [if_neg hk]
      refine ih _ q d ?_
      by_cases hq : q = d0.name
      · subst hq
        rw [lookupA_insertAppendDep_self]
        simp only [Option.getD_some]
        exact List.mem_append.mpr (Or.inl h)
      · rw [lookupA_insertAppendDep_ne _ _ _ hq]
        exact h

theorem depsByName_mem_aux (deps : List Dep) :
    ∀ (m : List (String × List Dep)) (d : Dep), d ∈ deps →
    d.kind ≠ DepKind.development →
    d ∈ (lookupA (deps.foldl
      (fun m d => if d.kind = DepKind.development then m else insertAppendDep m d) m)
      d.name).getD [] := by
  induction deps with
  | nil => intro m d hd; cases hd
  | cons d0 r ih =>
    intro m d hd hk
    simp only [List.foldl_cons]
    rcases List.mem_cons.mp hd with rfl | hd'
    · rw [if_neg hk]
      refine foldl_step_preserves_mem r _ _ _ ?_
      rw [lookupA_insertAppendDep_self]
      simp
    · exact ih _ d hd' hk

theorem depsByName_mem (deps : List Dep) (d : Dep) (hd : d ∈ deps)
    (hk : d.kind ≠ DepKind.development) :
    d ∈ (lookupA (depsByName deps) d.name).getD [] :=
  depsByName_mem_aux deps [] d hd hk

theorem foldl_optionalStep_lookup_ne (g : List Dep) :
    ∀ (acc : Table × List Dep) (q : String), (∀ d ∈ g, d.name ≠ q) →
    lookupA (g.foldl optionalStep acc).1 q = lookupA acc.1 q := by
  induction g with
  | nil => intro acc q _; rfl
  | cons d r ih =>
    intro acc q hq
    simp only [List.foldl_cons]
    rw [ih (optionalStep acc d) q (fun d' hd' => hq d' (List.mem_cons_of_mem _ hd'))]
    unfold optionalStep
    by_cases hopt : d.optional = true
    · rw [if_pos hopt]
      exact lookupA_insertB_ne _ _ _ _ (Ne.symm (hq d (by simp)))
    · rw [if_neg hopt]

theorem foldl_optionalStep_no_opt (r : List Dep) :
    ∀ (acc : Table × List Dep), (∀ d ∈ r, d.optional ≠ true) →
    (r.foldl optionalStep acc).1 = acc.1 := by
  induction r with
  | nil => intro acc _; rfl
  | cons d g ih =>
    intro acc h
    simp only [List.foldl_cons]
    rw [ih _ (fun d' hd' => h d' (List.mem_cons_of_mem _ hd'))]
    unfold optionalStep
    rw [if_neg (h d (by simp))]

theorem foldl_optionalStep_lookup_opt (g : List Dep) :
    ∀ (acc : Table × List Dep) (n : String), (∀ d ∈ g, d.name = n) →
    (∃ d ∈ g, d.optional = true) →
    ∃ dl, lookupA (g.foldl optionalStep acc).1 n = some ([""], [dl]) ∧
      dl.optional = true ∧ dl.name = n := by
  induction g with
  | nil =>
    rintro acc n _ ⟨d, hd, _⟩
    cases hd
  | cons d r ih =>
    intro acc n hn hex
    simp only [List.foldl_cons]
    by_cases hr : ∃ d' ∈ r, d'.optional = true
    · exact ih _ n (fun d' hd' => hn d' (List.mem_cons_of_mem _ hd')) hr
    · have hd : d.optional = true := by
        rcases hex with ⟨d', hd', hopt⟩
        rcases List.mem_cons.mp hd' with rfl | hd'
        · exact hopt
        · exact absurd ⟨d', hd', hopt⟩ hr
      rw [foldl_optionalStep_no_opt r _ (fun d' hd' hopt => hr ⟨d', hd', hopt⟩)]
      unfold optionalStep
      rw [if_pos hd]
      refine ⟨d, ?_, hd, hn d (by simp)⟩
      rw [show n = d.name from (hn d (by simp)).symm]
      exact lookupA_insertB_self _ _ _

theorem foldl_optionalStep_req (g : List Dep) :
    ∀ (acc : Table × List Dep), (∀ x ∈ acc.2, x.optional = false) →
    ∀ x ∈ (g.foldl optionalStep acc).2, x.optional = false := by
  induction g with
  | nil => intro acc h; exact h
  | cons d r ih =>
    intro acc h
    simp only [List.foldl_cons]
    refine ih _ ?_
    unfold optionalStep
    by_cases hopt : d.optional = true
    · rw [if_pos hopt]
      exact h
    · rw [if_neg hopt]
      intro x hx
      rcases List.mem_append.mp hx with hx | hx
      · exact h x hx
      · simp only [List.mem_singleton] at hx
        subst hx
        exact Bool.not_eq_true _ ▸ (by simpa using hopt)

theorem optionalPass_req (gl : List (String × List Dep)) :
    ∀ (acc : Table × List Dep), (∀ x ∈ acc.2, x.optional = false) →
    ∀ x ∈ (optionalPass gl acc).2, x.optional = false := by
  induction gl with
  | nil => intro acc h; exact h
  | cons p r ih =>
    obtain ⟨k, g⟩ := p
    intro acc h
    exact ih _ (foldl_optionalStep_req g acc h)

theorem optionalPass_lookup_ne (gl : List (String × List Dep)) :
    ∀ (acc : Table × List Dep) (q : String),
    (∀ p ∈ gl, ∀ d ∈ p.2, d.name ≠ q) →
    lookupA (optionalPass gl acc).1 q = lookupA acc.1 q := by
  induction gl with
  | nil => intro acc q _; rfl
  | cons p r ih =>
    obtain ⟨k, g⟩ := p
    intro acc q hq
    simp only [optionalPass]
    rw [ih _ q (fun p hp => hq p (List.mem_cons_of_mem _ hp))]
    exact foldl_optionalStep_lookup_ne g acc q (hq (k, g) (by simp))

theorem optionalPass_lookup_opt (gl : List (String × List Dep)) :
    ∀ (acc : Table × List Dep) (n : String) (g : List Dep),
    ((gl.map Prod.fst).Nodup) →
    (∀ p ∈ gl, ∀ d ∈ p.2, d.name = p.1) →
    lookupA gl n = some g → (∃ d ∈ g, d.optional = true) →
    ∃ dl, lookupA (optionalPass gl acc).1 n = some ([""], [dl]) ∧
      dl.optional = true ∧ dl.name = n := by
  induction gl with
  | nil =>
    intro acc n g _ _ hlk
    cases hlk
  | cons p r ih =>
    obtain ⟨k, gk⟩ := p
    intro acc n g hnd hnames hlk hex
    rw [List.map_cons, List.nodup_cons] at hnd
    simp only [optionalPass]
    by_cases hkn : k = n
    · subst hkn
      have hgk : gk = g := Option.some.inj (by simpa [lookupA] using hlk)
      subst hgk
      have hgn : ∀ d ∈ gk, d.name = k := hnames (k, gk) (by simp)
      obtain ⟨dl, hdl, hopt, hname⟩ := foldl_optionalStep_lookup_opt gk acc k hgn hex
      refine ⟨dl, ?_, hopt, hname⟩
      rw [optionalPass_lookup_ne r _ k ?_]
      · exact hdl
      · intro p hp d hd
        rw [hnames p (List.mem_cons_of_mem _ hp) d hd]
        intro hpk
        apply hnd.1
        rw [← hpk]
        exact List.mem_map.mpr ⟨p, hp, rfl⟩
    · have hlk2 : lookupA r n = some g := by
        simpa [lookupA, hkn] using hlk
      exact ih _ n g hnd.2 (fun p hp => hnames p (List.mem_cons_of_mem _ hp)) hlk2 hex

theorem foldl_optionalStep_req_source (g : List Dep) :
    ∀ (acc : Table × List Dep), ∀ x ∈ (g.foldl optionalStep acc).2,
    x ∈ acc.2 ∨ (x ∈ g ∧ x.optional = false) := by
  induction g with
  | nil => intro acc x hx; exact Or.inl hx
  | cons d r ih =>
    intro acc x hx
    simp only [List.foldl_cons] at hx
    rcases ih _ x hx with hx | ⟨hxr, hxo⟩
    · unfold optionalStep at hx
      by_cases hopt : d.optional = true
      · rw [if_pos hopt] at hx
        exact Or.inl hx
      · rw [if_neg hopt] at hx
        rcases List.mem_append.mp hx with hx | hx
        · exact Or.inl hx
        · simp only [List.mem_singleton] at hx
          subst hx
          exact Or.inr ⟨by simp, by simpa using hopt⟩
    · exact Or.inr ⟨List.mem_cons_of_mem _ hxr, hxo⟩

theorem optionalPass_req_source (gl : List (String × List Dep)) :
    ∀ (acc : Table × List Dep), ∀ x ∈ (optionalPass gl acc).2,
    x ∈ acc.2 ∨ ∃ p ∈ gl, x ∈ p.2 ∧ x.optional = false := by
  induction gl with
  | nil => intro acc x hx; exact Or.inl hx
  | cons p r ih =>
    obtain ⟨k, g⟩ := p
    intro acc x hx
    simp only [optionalPass] at hx
    rcases ih _ x hx with hx | ⟨q, hq, hxq, hxo⟩
    · rcases foldl_optionalStep_req_source g acc x hx with hx | ⟨hxg, hxo⟩
      · exact Or.inl hx
      · exact Or.inr ⟨(k, g), by simp, hxg, hxo⟩
    · exact Or.inr ⟨q, List.mem_cons_of_mem _ hq, hxq, hxo⟩

theorem foldl_optionalStep_req_mono (g : List Dep) :
    ∀ (acc : Table × List Dep), ∀ x ∈ acc.2, x ∈ (g.foldl optionalStep acc).2 := by
  induction g with
  | nil => intro acc x hx; exact hx
  | cons d r ih =>
    intro acc x hx
    simp only [List.foldl_cons]
    refine ih _ x ?_
    unfold optionalStep
    by_cases hopt : d.optional = true
    · rw [if_pos hopt]
      exact hx
    · rw [if_neg hopt]
      exact List.mem_append.mpr (Or.inl hx)

theorem optionalPass_req_mono (gl : List (String × List Dep)) :
    ∀ (acc : Table × List Dep), ∀ x ∈ acc.2, x ∈ (optionalPass gl acc).2 := by
  induction gl with
  | nil => intro acc x hx; exact hx
  | cons p r ih =>
    obtain ⟨k, g⟩ := p
    intro acc x hx
    simp only [optionalPass]
    exact ih _ x (foldl_optionalStep_req_mono g acc x hx)

theorem foldl_optionalStep_req_complete (g : List Dep) :
    ∀ (acc : Table × List Dep) (d : Dep), d ∈ g → d.optional = false →
    d ∈ (g.foldl optionalStep acc).2 := by
  induction g with
  | nil => intro acc d hd; cases hd
  | cons d0 r ih =>
    intro acc d hd hopt
    simp only [List.foldl_cons]
    rcases List.mem_cons.mp hd with rfl | hd
    · refine foldl_optionalStep_req_mono r _ d ?_
      unfold optionalStep
      rw [if_neg (by simp [hopt])]
      exact List.mem_append.mpr (Or.inr (by simp))
    · exact ih _ d hd hopt

theorem optionalPass_req_complete (gl : List (String × List Dep)) :
    ∀ (acc : Table × List Dep) (n : String) (g : List Dep) (d : Dep),
    lookupA gl n = some g → d ∈ g → d.optional = false →
    d ∈ (optionalPass gl acc).2 := by
  induction gl with
  | nil => intro acc n g d hlk; cases hlk
  | cons p r ih =>
    obtain ⟨k, gk⟩ := p
    intro acc n g d hlk hd hopt
    simp only [optionalPass]
    by_cases hkn : k = n
    · have hg : gk = g := by simpa [lookupA, hkn] using hlk
      subst hg
      exact optionalPass_req_mono r _ d (foldl_optionalStep_req_complete gk acc d hd hopt)
    · have hlk2 : lookupA r n = some g := by simpa [lookupA, hkn] using hlk
      exact ih _ n g d hlk2 hd hopt

/-- Counterexample to C5: package with an explicit feature `foo` (empty edge
list, so its entry would be `([""], [])`) and an optional dependency also
named `foo`. `BTreeMap::insert` in the optional-dependency loop overwrites
the explicit feature entry with the singleton `([""], [foo-dep])`, and the
optional dependency is not merged into the empty-string feature's
required-dependency list (which stays empty) — contradicting both halves of
the claim. -/
theorem c5_counterexample_overwrite :
    all_dependencies_and_features [⟨"foo", DepKind.normal, true, [], true⟩]
      [("foo", [])] =
      some [("foo", ([""], [⟨"foo", DepKind.normal, true, [], true⟩])),
            ("", ([], [])), ("default", ([""], []))] ∧
    lookupA ([("foo", ([""], [⟨"foo", DepKind.normal, true, [], true⟩])),
              ("", ([], [])), ("default", ([""], []))] : Table) "foo" ≠
      some ([""], []) ∧
    lookupA ([("foo", ([""], [⟨"foo", DepKind.normal, true, [], true⟩])),
              ("", ([], [])), ("default", ([""], []))] : Table) "" =
      some ([], []) :=
  ⟨rfl, by decide, rfl⟩

/-- C5 (amended): the empty-string feature's required-dependency list holds
exactly the non-optional, non-development dependencies — every element of it
is a non-optional, non-development member of the input list, and every
non-optional, non-development input dependency appears in it — and every
optional non-development dependency named `n ≠ ""` leaves the final table
mapping `n` to a singleton entry `([""], [d'])` for some optional dependency
`d'` of that name — overwriting any same-named explicit feature entry rather
than keeping it. -/
theorem c5_optional_dep_singleton (deps : List Dep)
    (features : List (String × List FV)) (t : Table)
    (hall : all_dependencies_and_features deps features = some t) :
    (∀ ff req, lookupA t "" = some (ff, req) →
      (∀ x ∈ req, x.optional = false ∧ x.kind ≠ DepKind.development ∧ x ∈ deps) ∧
      (∀ d ∈ deps, d.optional = false → d.kind ≠ DepKind.development → d ∈ req)) ∧
    (∀ d ∈ deps, d.optional = true → d.kind ≠ DepKind.development → d.name ≠ "" →
      ∃ d', lookupA t d.name = some ([""], [d']) ∧ d'.optional = true ∧
        d'.name = d.name) := by
  unfold all_dependencies_and_features at hall
  revert hall
  cases hfp : featurePass (depsByName deps) features [] with
  | none => intro h; cases h
  | some t0 =>
    intro hall
    have ht : t = (if (lookupA (insertB (optionalPass (depsByName deps) (t0, [])).1 ""
          ([], (optionalPass (depsByName deps) (t0, [])).2)) "default").isSome
        then insertB (optionalPass (depsByName deps) (t0, [])).1 ""
          ([], (optionalPass (depsByName deps) (t0, [])).2)
        else insertB (insertB (optionalPass (depsByName deps) (t0, [])).1 ""
          ([], (optionalPass (depsByName deps) (t0, [])).2)) "default" ([""], [])) :=
      (Option.some.inj hall).symm
    have hl0 : lookupA t "" =
        some ([], (optionalPass (depsByName deps) (t0, [])).2) := by
      rw [ht]
      by_cases hd : (lookupA (insertB (optionalPass (depsByName deps) (t0, [])).1 ""
          ([], (optionalPass (depsByName deps) (t0, [])).2)) "default").isSome
      · rw [if_pos hd]
        exact lookupA_insertB_self _ _ _
      · rw [if_neg hd, lookupA_insertB_ne _ _ _ _ (by decide)]
        exact lookupA_insertB_self _ _ _
    constructor
    · intro ff req heq
      rw [hl0] at heq
      have hreq' : (optionalPass (depsByName deps) (t0, [])).2 = req :=
        ((Prod.mk.injEq _ _ _ _).mp (Option.some.inj heq)).2
      constructor
      · intro x hx
        rw [← hreq'] at hx
        rcases optionalPass_req_source (depsByName deps) (t0, []) x hx with
          hx | ⟨p, hp, hxp, hxo⟩
        · cases hx
        · exact ⟨hxo, (depsByName_names deps p hp x hxp).2,
            depsByName_prop deps (fun y => y ∈ deps) (fun d hd => hd) p hp x hxp⟩
      · intro d hd hdo hdk
        rw [← hreq']
        have hmem := depsByName_mem deps d hd hdk
        cases hg : lookupA (depsByName deps) d.name with
        | none =>
          rw [hg] at hmem
          cases hmem
        | some g =>
          rw [hg] at hmem
          simp only [Option.getD_some] at hmem
          exact optionalPass_req_complete (depsByName deps) (t0, [])
            d.name g d hg hmem hdo
    · intro d hd hopt hkind hname
      have hmem := depsByName_mem deps d hd hkind
      cases hg : lookupA (depsByName deps) d.name with
      | none =>
        rw [hg] at hmem
        cases hmem
      | some g =>
        rw [hg] at hmem
        simp only [Option.getD_some] at hmem
        obtain ⟨dl, hdl, hoptl, hnamel⟩ :=
          optionalPass_lookup_opt (depsByName deps) (t0, []) d.name g
            (depsByName_nodup_keys deps)
            (fun p hp x hx => (depsByName_names deps p hp x hx).1)
            hg ⟨d, hmem, hopt⟩
        have hstep1 : lookupA (insertB (optionalPass (depsByName deps) (t0, [])).1 ""
            ([], (optionalPass (depsByName deps) (t0, [])).2)) d.name =
            some ([""], [dl]) := by
          rw [lookupA_insertB_ne _ _ _ _ hname]
          exact hdl
        rw [ht]
        by_cases hdef : (lookupA (insertB (optionalPass (depsByName deps) (t0, [])).1 ""
            ([], (optionalPass (depsByName deps) (t0, [])).2)) "default").isSome
        · rw [if_pos hdef]
          exact ⟨dl, hstep1, hoptl, hnamel⟩
        · rw [if_neg hdef]
          by_cases hdn : d.name = "default"
          · exfalso
            apply hdef
            rw [← hdn, hstep1]
            rfl
          · rw [lookupA_insertB_ne _ _ _ _ hdn]
            exact ⟨dl, hstep1, hoptl, hnamel⟩

/-- Witness for C5 (amended): an optional dependency `foo` overwriting its
same-named explicit feature, alongside a required dependency `serde` that
lands in the empty-string list. -/
theorem c5_optional_dep_singleton_witness :
    (∀ ff req, lookupA ([("foo", ([""], [⟨"foo", DepKind.normal, true, [], true⟩])),
        ("", ([], [⟨"serde", DepKind.normal, false, [], true⟩])),
        ("default", ([""], []))] : Table) "" = some (ff, req) →
      (∀ x ∈ req, x.optional = false ∧ x.kind ≠ DepKind.development ∧
        x ∈ [(⟨"foo", DepKind.normal, true, [], true⟩ : Dep),
          ⟨"serde", DepKind.normal, false, [], true⟩]) ∧
      (∀ d ∈ [(⟨"foo", DepKind.normal, true, [], true⟩ : Dep),
          ⟨"serde", DepKind.normal, false, [], true⟩], d.optional = false →
        d.kind ≠ DepKind.development → d ∈ req)) ∧
    (∀ d ∈ [(⟨"foo", DepKind.normal, true, [], true⟩ : Dep),
        ⟨"serde", DepKind.normal, false, [], true⟩], d.optional = true →
      d.kind ≠ DepKind.development → d.name ≠ "" →
      ∃ d', lookupA ([("foo", ([""], [⟨"foo", DepKind.normal, true, [], true⟩])),
          ("", ([], [⟨"serde", DepKind.normal, false, [], true⟩])),
          ("default", ([""], []))] : Table) d.name =
        some ([""], [d']) ∧ d'.optional = true ∧ d'.name = d.name) :=
  c5_optional_dep_singleton
    [⟨"foo", DepKind.normal, true, [], true⟩,
     ⟨"serde", DepKind.normal, false, [], true⟩]
    [("foo", [])] _ (by rfl)

/-! ### Extraction loop lemmas (for C2, C6, C7) -/

theorem mem_writeRec {l : List FsRec} {r x : FsRec} (hx : x ∈ writeRec l r) :
    x = r ∨ x ∈ l := by
  induction l with
  | nil => simpa [writeRec] using hx
  | cons y ys ih =>
    by_cases h : y.path = r.path
    · simp only [writeRec, if_pos h, List.mem_cons] at hx
      rcases hx with hx | hx
      · exact Or.inl hx
      · exact Or.inr (List.mem_cons_of_mem _ hx)
    · simp only [writeRec, if_neg h, List.mem_cons] at hx
      rcases hx with hx | hx
      · exact Or.inr (by simp [hx])
      · rcases ih hx with hx | hx
        · exact Or.inl hx
        · exact Or.inr (List.mem_cons_of_mem _ hx)

theorem runEntries_no_escape (excl incl : List (List String → Bool))
    (entries : List TarEntry) :
    ∀ (st : LoopSt),
    (∀ r ∈ st.fs, ".." ∉ r.path) →
    ∀ st', (runEntries excl incl entries st = LoopOut.traversal st' ∨
            runEntries excl incl entries st = LoopOut.done st') →
    ∀ r ∈ st'.fs, ".." ∉ r.path := by
  induction entries with
  | nil =>
    intro st hst st' h
    rcases h with h | h
    · exact absurd h (by simp [runEntries])
    · cases LoopOut.done.inj h
      exact hst
  | cons e rest ih =>
    intro st hst st' h
    simp only [runEntries] at h
    by_cases hskip : isSkip (filter_path excl incl e.path) = true
    · rw [if_pos hskip] at h
      refine ih _ ?_ st' h
      cases hfp : filter_path excl incl e.path with
      | error m => rw [hfp] at hskip; cases hskip
      | ok b =>
        cases b with
        | false => rw [hfp] at hskip; cases hskip
        | true => exact hst
    · rw [if_neg hskip] at h
      by_cases hdot : ".." ∈ e.path
      · rw [if_pos hdot] at h
        have hfs : (match filter_path excl incl e.path with
            | Except.error m => { st with errs := st.errs ++ [m] }
            | Except.ok true => { st with modified := true }
            | Except.ok false => st).fs = st.fs := by
          cases hfp : filter_path excl incl e.path with
          | error m => rfl
          | ok b => cases b <;> rfl
        rcases h with h | h
        · cases LoopOut.traversal.inj h
          rw [hfs]
          exact hst
        · exact absurd h (by simp)
      · rw [if_neg hdot] at h
        refine ih _ ?_ st' h
        intro r hr
        rcases mem_writeRec hr with rfl | hr
        · exact hdot
        · revert hr
          cases hfp : filter_path excl incl e.path with
          | error m => exact fun hr => hst r hr
          | ok b => cases b <;> exact fun hr => hst r hr

theorem runEntries_traversal_of_escape (excl incl : List (List String → Bool))
    (entries : List TarEntry) :
    ∀ (st : LoopSt),
    (∃ e ∈ entries, ".." ∈ e.path ∧ isSkip (filter_path excl incl e.path) = false) →
    ∃ st', runEntries excl incl entries st = LoopOut.traversal st' := by
  induction entries with
  | nil =>
    rintro st ⟨e, he, -, -⟩
    cases he
  | cons e0 rest ih =>
    rintro st ⟨e, he, hdot, hsk⟩
    simp only [runEntries]
    by_cases hskip : isSkip (filter_path excl incl e0.path) = true
    · rw [if_pos hskip]
      apply ih
      rcases List.mem_cons.mp he with rfl | he'
      · rw [hskip] at hsk
        cases hsk
      · exact ⟨e, he', hdot, hsk⟩
    · rw [if_neg hskip]
      by_cases hdot0 : ".." ∈ e0.path
      · rw [if_pos hdot0]
        exact ⟨_, rfl⟩
      · rw [if_neg hdot0]
        apply ih
        rcases List.mem_cons.mp he with rfl | he'
        · exact absurd hdot hdot0
        · exact ⟨e, he', hdot, hsk⟩

theorem runEntries_done_charact (excl incl : List (List String → Bool))
    (entries : List TarEntry) :
    ∀ (st st' : LoopSt),
    runEntries excl incl entries st = LoopOut.done st' →
    st'.errs = st.errs ++ collectErrs excl incl entries ∧
    st'.last_mtime = (entries.filter
      fun e => !isSkip (filter_path excl incl e.path)).foldl
      (fun a e => max a e.mtime) st.last_mtime := by
  induction entries with
  | nil =>
    intro st st' h
    cases LoopOut.done.inj h
    simp [collectErrs]
  | cons e0 rest ih =>
    intro st st' h
    simp only [runEntries] at h
    cases hfp : filter_path excl incl e0.path with
    | ok b =>
      cases b with
      | true =>
        rw [hfp] at h
        simp only [isSkip, if_pos] at h
        have := ih _ _ h
        refine ⟨?_, ?_⟩
        · rw [this.1]
          simp [collectErrs, List.filterMap_cons, hfp]
        · rw [this.2]
          simp [List.filter_cons, hfp, isSkip]
      | false =>
        rw [hfp] at h
        simp only [isSkip, Bool.false_eq_true, if_false] at h
        by_cases hdot : ".." ∈ e0.path
        · rw [if_pos hdot] at h
          exact absurd h (by simp)
        · rw [if_neg hdot] at h
          have := ih _ _ h
          refine ⟨?_, ?_⟩
          · rw [this.1]
            simp [collectErrs, List.filterMap_cons, hfp]
          · rw [this.2]
            simp [List.filter_cons, hfp, isSkip]
    | error m =>
      rw [hfp] at h
      simp only [isSkip, Bool.false_eq_true, if_false] at h
      by_cases hdot : ".." ∈ e0.path
      · rw [if_pos hdot] at h
        exact absurd h (by simp)
      · rw [if_neg hdot] at h
        have := ih _ _ h
        refine ⟨?_, ?_⟩
        · rw [this.1]
          simp [collectErrs, List.filterMap_cons, hfp]
        · rw [this.2]
          simp [List.filter_cons, hfp, isSkip]

theorem find?_append_none {α : Type} (p : α → Bool) {l1 : List α} (l2 : List α)
    (h : ∀ x ∈ l1, ¬p x = true) : (l1 ++ l2).find? p = l2.find? p := by
  induction l1 with
  | nil => rfl
  | cons x r ih =>
    rw [List.cons_append, List.find?_cons_of_neg _ (h x (by simp))]
    exact ih fun x hx => h x (List.mem_cons_of_mem _ hx)

theorem findFile_rewriteManifest_toml (tree : List FsRec) (reg : String) (lm : Nat) :
    findFile (rewriteManifest tree reg lm) ["Cargo.toml"] = some (reg, lm) := by
  unfold findFile rewriteManifest
  rw [find?_append_none]
  · simp [List.find?]
  · intro x hx
    obtain ⟨r, hr, hxr⟩ := List.mem_map.mp hx
    by_cases hc : r.path = ["Cargo.toml"] ∧ r.kind = EKind.file
    · rw [if_pos hc] at hxr
      rw [← hxr]
      simp
    · rw [if_neg hc] at hxr
      rw [← hxr]
      simpa using hc

theorem findFile_rewriteManifest_orig (reg : String) (lm : Nat) :
    ∀ (tree : List FsRec) (actual : String) (mt0 : Nat),
    findFile tree ["Cargo.toml"] = some (actual, mt0) →
    findFile (rewriteManifest tree reg lm) ["Cargo.toml.orig"] =
      some (actual, mt0) := by
  intro tree
  induction tree with
  | nil =>
    intro actual mt0 h
    simp [findFile, List.find?] at h
  | cons r rest ih =>
    intro actual mt0 h
    by_cases hc : r.path = ["Cargo.toml"] ∧ r.kind = EKind.file
    · have hr : (r.content, r.mtime) = (actual, mt0) := by
        unfold findFile at h
        rw [List.find?_cons_of_pos _ (by simpa using hc)] at h
        exact Option.some.inj h
      have hne : ¬(decide (r.path ≠ ["Cargo.toml.orig"])) = false := by
        rw [hc.1]
        simp
      unfold rewriteManifest
      rw [List.filter_cons_of_pos (by simpa using hne), List.map_cons, if_pos hc,
        List.cons_append]
      unfold findFile
      rw [List.find?_cons_of_pos _ (by simp [hc.2])]
      exact congrArg some hr
    · have h' : findFile rest ["Cargo.toml"] = some (actual, mt0) := by
        unfold findFile at h ⊢
        rw [List.find?_cons_of_neg _ (by simpa using hc)] at h
        exact h
      by_cases ho : r.path = ["Cargo.toml.orig"]
      · have hstep : rewriteManifest (r :: rest) reg lm = rewriteManifest rest reg lm := by
          unfold rewriteManifest
          rw [List.filter_cons_of_neg (by simp [ho])]
        rw [hstep]
        exact ih actual mt0 h'
      · have hstep : rewriteManifest (r :: rest) reg lm =
            r :: rewriteManifest rest reg lm := by
          unfold rewriteManifest
          rw [List.filter_cons_of_pos (by simpa using ho), List.map_cons, if_neg hc,
            List.cons_append]
        rw [hstep]
        unfold findFile
        rw [List.find?_cons_of_neg _ (by simp [ho])]
        exact ih actual mt0 h'

/-- Counterexample to C2: an archive entry whose path escapes the staging
root (`../etc/passwd`) but matches an exclude pattern is skipped by the
path filter before `unpack_in` ever sees it, so extraction succeeds
(returning the modified flag) instead of failing with `PathTraversal`. -/
theorem c2_counterexample_excluded_traversal :
    (".." ∈ (["..", "etc", "passwd"] : List String)) ∧
    extract_crate [fun p => decide (p = ["..", "etc", "passwd"])] []
      [⟨["foo"], EKind.dir, "", 1⟩, ⟨["foo", "Cargo.toml"], EKind.file, "T", 2⟩,
       ⟨["..", "etc", "passwd"], EKind.file, "evil", 3⟩] "T" =
      Except.ok ([⟨[], EKind.dir, "", 1⟩, ⟨["Cargo.toml"], EKind.file, "T", 2⟩],
        true) :=
  ⟨by decide, by rfl⟩

/-- C2 (amended): if some archive entry that the exclude filter does not
skip has a parent-directory component in its path, extraction fails with
`PathTraversal`; and the loop never writes a record whose path has a
parent-directory component, so no write of any entry lands outside the
staging root. -/
theorem c2_path_traversal (excl incl : List (List String → Bool))
    (entries : List TarEntry) (reg : String)
    (h : ∃ e ∈ entries, ".." ∈ e.path ∧
      isSkip (filter_path excl incl e.path) = false) :
    extract_crate excl incl entries reg = Except.error ExtractErr.pathTraversal ∧
    ∀ st', runEntries excl incl entries initSt = LoopOut.traversal st' →
      ∀ r ∈ st'.fs, ".." ∉ r.path := by
  obtain ⟨st', hst'⟩ := runEntries_traversal_of_escape excl incl entries initSt h
  constructor
  · unfold extract_crate
    rw [hst']
  · intro st'' h'' r hr
    exact runEntries_no_escape excl incl entries initSt
      (fun r hr => absurd hr (List.not_mem_nil r)) st'' (Or.inl h'') r hr

/-- Witness for C2 (amended): a one-entry archive with path `../x`. -/
theorem c2_path_traversal_witness :
    extract_crate [] [] [⟨["..", "x"], EKind.file, "e", 0⟩] "r" =
      Except.error ExtractErr.pathTraversal ∧
    ∀ st', runEntries [] [] [⟨["..", "x"], EKind.file, "e", 0⟩] initSt =
        LoopOut.traversal st' → ∀ r ∈ st'.fs, ".." ∉ r.path :=
  c2_path_traversal [] [] _ "r"
    ⟨⟨["..", "x"], EKind.file, "e", 0⟩, by simp, by decide, by rfl⟩

/-- Counterexample to C6: a suspicious file (`foo/x.c`, extension `c`) that
is not on the include whitelist but matches an exclude pattern is skipped
before the suspicious-extension check runs, so no rejection is collected
and extraction succeeds instead of aborting with `SuspiciousContent`. -/
theorem c6_counterexample_excluded_suspicious :
    pathExt ["foo", "x.c"] = some "c" ∧
    extract_crate [fun p => decide (p = ["foo", "x.c"])] []
      [⟨["foo"], EKind.dir, "", 1⟩, ⟨["foo", "Cargo.toml"], EKind.file, "T", 2⟩,
       ⟨["foo", "x.c"], EKind.file, "c", 3⟩] "T" =
      Except.ok ([⟨[], EKind.dir, "", 1⟩, ⟨["Cargo.toml"], EKind.file, "T", 2⟩],
        true) :=
  ⟨by rfl, by rfl⟩

/-- C6 (amended): when the entry loop runs to completion and at least one
entry that the exclude filter does not skip is suspicious and not on the
include whitelist, extraction aborts with `SuspiciousContent` carrying the
messages of every such entry, in archive order — not just the first. -/
theorem c6_suspicious_content_aggregated (excl incl : List (List String → Bool))
    (entries : List TarEntry) (reg : String) (st : LoopSt)
    (h1 : runEntries excl incl entries initSt = LoopOut.done st)
    (h2 : collectErrs excl incl entries ≠ []) :
    extract_crate excl incl entries reg =
      Except.error (ExtractErr.suspiciousContent (collectErrs excl incl entries)) := by
  have herrs : st.errs = collectErrs excl incl entries := by
    simpa [initSt] using (runEntries_done_charact excl incl entries initSt st h1).1
  unfold extract_crate
  rw [h1]
  simp [herrs, h2]

/-- Witness for C6 (amended): two suspicious files, both reported. -/
theorem c6_suspicious_content_aggregated_witness :
    extract_crate [] []
      [⟨["foo"], EKind.dir, "", 1⟩, ⟨["foo", "a.c"], EKind.file, "", 2⟩,
       ⟨["foo", "b.c"], EKind.file, "", 3⟩] "T" =
      Except.error (ExtractErr.suspiciousContent
        ["Suspicious file, should probably be excluded: foo/a.c",
         "Suspicious file, should probably be excluded: foo/b.c"]) :=
  c6_suspicious_content_aggregated [] []
    [⟨["foo"], EKind.dir, "", 1⟩, ⟨["foo", "a.c"], EKind.file, "", 2⟩,
     ⟨["foo", "b.c"], EKind.file, "", 3⟩] "T"
    ⟨[⟨["foo"], EKind.dir, "", 1⟩, ⟨["foo", "a.c"], EKind.file, "", 2⟩,
      ⟨["foo", "b.c"], EKind.file, "", 3⟩], false, 3,
     ["Suspicious file, should probably be excluded: foo/a.c",
      "Suspicious file, should probably be excluded: foo/b.c"]⟩
    (by rfl) (by decide)

/-- C7: when the entry loop completes with no suspicious-content messages,
the staging area holds a single top-level directory, and the on-disk
manifest text differs from the canonical registry text, extraction returns
the modified flag set to true, preserves the original manifest (content and
mtime) under `Cargo.toml.orig`, and writes the canonical text to
`Cargo.toml` with its mtime set to the maximum entry mtime tracked over the
unpacked archive entries. -/
theorem c7_manifest_rewrite (excl incl : List (List String → Bool))
    (entries : List TarEntry) (reg : String) (st : LoopSt) (d : String)
    (actual : String) (mt0 : Nat)
    (h1 : runEntries excl incl entries initSt = LoopOut.done st)
    (h2 : st.errs = [])
    (h3 : topNames st.fs = [d])
    (h4 : isDirTop st.fs d = true)
    (h5 : findFile (stripTop d st.fs) ["Cargo.toml"] = some (actual, mt0))
    (h6 : actual ≠ reg) :
    extract_crate excl incl entries reg =
      Except.ok (rewriteManifest (stripTop d st.fs) reg
        (maxMtime excl incl entries), true) ∧
    findFile (rewriteManifest (stripTop d st.fs) reg (maxMtime excl incl entries))
      ["Cargo.toml"] = some (reg, maxMtime excl incl entries) ∧
    findFile (rewriteManifest (stripTop d st.fs) reg (maxMtime excl incl entries))
      ["Cargo.toml.orig"] = some (actual, mt0) := by
  have hmt : st.last_mtime = maxMtime excl incl entries := by
    simpa [initSt, maxMtime] using
      (runEntries_done_charact excl incl entries initSt st h1).2
  refine ⟨?_, findFile_rewriteManifest_toml _ _ _,
    findFile_rewriteManifest_orig reg _ _ actual mt0 h5⟩
  unfold extract_crate
  rw [h1]
  simp [h2, h3, h4, h5, h6, hmt]

/-- Witness for C7 on a three-entry archive whose manifest text `old`
differs from the canonical text `new`. -/
theorem c7_manifest_rewrite_witness :
    extract_crate [] []
      [⟨["foo"], EKind.dir, "", 1⟩, ⟨["foo", "Cargo.toml"], EKind.file, "old", 5⟩,
       ⟨["foo", "lib.rs"], EKind.file, "x", 9⟩] "new" =
      Except.ok ([⟨[], EKind.dir, "", 1⟩,
        ⟨["Cargo.toml.orig"], EKind.file, "old", 5⟩,
        ⟨["lib.rs"], EKind.file, "x", 9⟩,
        ⟨["Cargo.toml"], EKind.file, "new", 9⟩], true) ∧
    findFile [⟨[], EKind.dir, "", 1⟩, ⟨["Cargo.toml.orig"], EKind.file, "old", 5⟩,
        ⟨["lib.rs"], EKind.file, "x", 9⟩, ⟨["Cargo.toml"], EKind.file, "new", 9⟩]
      ["Cargo.toml"] = some ("new", 9) ∧
    findFile [⟨[], EKind.dir, "", 1⟩, ⟨["Cargo.toml.orig"], EKind.file, "old", 5⟩,
        ⟨["lib.rs"], EKind.file, "x", 9⟩, ⟨["Cargo.toml"], EKind.file, "new", 9⟩]
      ["Cargo.toml.orig"] = some ("old", 5) :=
  c7_manifest_rewrite [] []
    [⟨["foo"], EKind.dir, "", 1⟩, ⟨["foo", "Cargo.toml"], EKind.file, "old", 5⟩,
     ⟨["foo", "lib.rs"], EKind.file, "x", 9⟩] "new"
    ⟨[⟨["foo"], EKind.dir, "", 1⟩, ⟨["foo", "Cargo.toml"], EKind.file, "old", 5⟩,
      ⟨["foo", "lib.rs"], EKind.file, "x", 9⟩], false, 9, []⟩ "foo" "old" 5
    (by rfl) (by rfl) (by rfl) (by rfl) (by rfl) (by decide)

/-! ### C8 (amended): the implicit default feature -/

theorem foldl_optionalStep_req_keep (g : List Dep) :
    ∀ (acc : Table × List Dep), (∀ d ∈ g, d.optional = true) →
    (g.foldl optionalStep acc).2 = acc.2 := by
  induction g with
  | nil => intro acc _; rfl
  | cons d r ih =>
    intro acc h
    simp only [List.foldl_cons]
    rw [ih _ (fun d' hd' => h d' (List.mem_cons_of_mem _ hd'))]
    unfold optionalStep
    rw [if_pos (h d (by simp))]

theorem optionalPass_req_keep (gl : List (String × List Dep)) :
    ∀ (acc : Table × List Dep), (∀ p ∈ gl, ∀ d ∈ p.2, d.optional = true) →
    (optionalPass gl acc).2 = acc.2 := by
  induction gl with
  | nil => intro acc _; rfl
  | cons p r ih =>
    obtain ⟨k, g⟩ := p
    intro acc h
    simp only [optionalPass]
    rw [ih _ (fun p hp => h p (List.mem_cons_of_mem _ hp)),
      foldl_optionalStep_req_keep g acc (h (k, g) (by simp))]

/-- C8 (amended): for every package whose manifest declares no features
section and whose non-development dependencies are all optional and none of
them named `"default"`, `all_dependencies_and_features` succeeds, maps
`"default"` to the entry `([""], [])` (edges `[""]`, no direct
dependencies), maps `""` to `([], [])`, and the dependency closure of
`"default"` is empty (its feature closure is `[""]`). A required
non-development dependency instead makes the closure of `"default"`
non-empty (see the counterexample). -/
theorem c8_default_empty_closure (deps : List Dep)
    (h : ∀ d ∈ deps, d.kind ≠ DepKind.development →
      d.optional = true ∧ d.name ≠ "default") :
    (all_dependencies_and_features deps []).isSome ∧
    ∀ t, all_dependencies_and_features deps [] = some t →
      lookupA t "default" = some ([""], []) ∧
      lookupA t "" = some ([], []) ∧
      ∀ n : Nat, feature_all_deps (n + 2) t "default" = some ([""], []) := by
  have hgrp : ∀ p ∈ depsByName deps, ∀ x ∈ p.2, x ∈ deps :=
    depsByName_prop deps (fun x => x ∈ deps) (fun d hd => hd)
  have hopt : ∀ p ∈ depsByName deps, ∀ x ∈ p.2, x.optional = true := by
    intro p hp x hx
    exact (h x (hgrp p hp x hx) (depsByName_names deps p hp x hx).2).1
  have hnm : ∀ p ∈ depsByName deps, ∀ x ∈ p.2, x.name ≠ "default" := by
    intro p hp x hx
    exact (h x (hgrp p hp x hx) (depsByName_names deps p hp x hx).2).2
  have hreq : (optionalPass (depsByName deps) (([] : Table), ([] : List Dep))).2 = [] :=
    optionalPass_req_keep (depsByName deps) _ hopt
  have hdef : lookupA (optionalPass (depsByName deps)
      (([] : Table), ([] : List Dep))).1 "default" = none := by
    rw [optionalPass_lookup_ne (depsByName deps) _ "default" hnm]
    rfl
  constructor
  · unfold all_dependencies_and_features
    exact rfl
  · intro t hall
    unfold all_dependencies_and_features at hall
    have ht := (Option.some.inj hall).symm
    have hd1 : lookupA (insertB (optionalPass (depsByName deps)
        (([] : Table), ([] : List Dep))).1 ""
          ([], (optionalPass (depsByName deps) (([] : Table), ([] : List Dep))).2))
        "default" = none := by
      rw [lookupA_insertB_ne _ _ _ _ (by decide)]
      exact hdef
    have htif : t = insertB (insertB (optionalPass (depsByName deps)
        (([] : Table), ([] : List Dep))).1 ""
          ([], (optionalPass (depsByName deps) (([] : Table), ([] : List Dep))).2))
        "default" ([""], []) := by
      rw [ht, if_neg]
      rw [hd1]
      simp
    have hld : lookupA t "default" = some ([""], []) := by
      rw [htif]
      exact lookupA_insertB_self _ _ _
    have hl0 : lookupA t "" = some ([], []) := by
      rw [htif, lookupA_insertB_ne _ _ _ _ (by decide),
        lookupA_insertB_self, hreq]
    refine ⟨hld, hl0, ?_⟩
    intro n
    simp [feature_all_deps, hld, hl0, fadGo]

/-- Witness for C8 (amended): one optional dependency `foo`, no features
section. -/
theorem c8_default_empty_closure_witness :
    (all_dependencies_and_features [⟨"foo", DepKind.normal, true, [], true⟩] []).isSome ∧
    lookupA ([("foo", ([""], [⟨"foo", DepKind.normal, true, [], true⟩])),
      ("", ([], [])), ("default", ([""], []))] : Table) "default" = some ([""], []) ∧
    lookupA ([("foo", ([""], [⟨"foo", DepKind.normal, true, [], true⟩])),
      ("", ([], [])), ("default", ([""], []))] : Table) "" = some ([], []) ∧
    feature_all_deps 2 ([("foo", ([""], [⟨"foo", DepKind.normal, true, [], true⟩])),
      ("", ([], [])), ("default", ([""], []))] : Table) "default" = some ([""], []) := by
  have h := c8_default_empty_closure [⟨"foo", DepKind.normal, true, [], true⟩]
    (by
      intro d hd _
      simp only [List.mem_singleton] at hd
      subst hd
      exact ⟨rfl, by decide⟩)
  have h2 := h.2 _ rfl
  exact ⟨h.1, h2.1, h2.2.1, h2.2.2 0⟩

end Debcargo
